import Mathlib

/-!
Shallow embedding of the TON config-cell fee utilities
(`gasUtils.ts` of the mintless-jetton repository) in Lean 4.

Modelling conventions, fixed once for the whole file:

* TypeScript `bigint` is embedded as `Int`.  The TS operators on `bigint`
  are: `/` truncating division toward zero (`Int.tdiv`), `%` remainder
  with the sign of the dividend (`Int.tmod`), `>>` arithmetic right shift,
  i.e. floor division by a power of two (`Int.fdiv`).
* A TON `Cell` is a bit string plus up to four child cells.  Cells are
  content-addressed: the SDK's `cell.hash()` is a collision-free digest of
  the whole subtree, so hash equality is embedded as equality of the
  (inductive, hence acyclic) cell values themselves.
* A `Slice` is a read cursor over a cell's bits; loads consume from the
  front and fail (`Except.error`) on underrun, exactly as the SDK's
  `loadUint`/`skip` throw.  `Builder.storeUint` fails when the value does
  not fit the requested width; both failure kinds are collected in `Err`.
* The SDK's `Dictionary` (a binary trie keyed by fixed-width ints) is
  external to the repository.  Its observable behaviour - a finite map
  whose `values()` come back in ascending key order after a
  serialize/load round trip - is embedded as a key-sorted association
  list; `loadDictDirect`/`storeDictDirect` on the outer config dictionary
  are the identity on that list, and the inner storage-price dictionary
  is serialized as the concatenation of (32-bit key, record) chunks in
  list order, an injective stand-in for the trie wire format with the
  same ordering and round-trip behaviour.
-/

/-- Errors raised by the embedded operations: `formatError` stands for the
`Error(...)` throws on tag mismatches, slice underruns and builder
overflows; `keyNotFound` stands for the explicit missing-key throw in
`getMsgPrices` and for the `TypeError` raised when `config.get(k)!` yields
`undefined` and is immediately dereferenced. -/
inductive Err where
  | formatError (msg : String)
  | keyNotFound (msg : String)
deriving DecidableEq

/-- Big-endian encoding of a natural number into exactly `w` bits
(the value is taken modulo `2 ^ w`). -/
def natToBits : Nat → Nat → List Bool
  | 0, _ => []
  | w + 1, v => natToBits w (v / 2) ++ [v % 2 == 1]

/-- Big-endian decoding of a bit string into a natural number. -/
def bitsToNat (bs : List Bool) : Nat :=
  bs.foldl (fun acc b => 2 * acc + (if b then 1 else 0)) 0

theorem natToBits_length (w v : Nat) : (natToBits w v).length = w := by
  induction w generalizing v with
  | zero => rfl
  | succ w ih => simp [natToBits, ih]

theorem bitsToNat_foldl_shift (a : Nat) (ys : List Bool) :
    List.foldl (fun acc b => 2 * acc + (if b then 1 else 0)) a ys =
      a * 2 ^ ys.length + bitsToNat ys := by
  induction ys generalizing a with
  | nil => simp [bitsToNat]
  | cons y ys ih =>
    simp only [List.foldl_cons, List.length_cons]
    have hy : bitsToNat (y :: ys) = (if y then 1 else 0) * 2 ^ ys.length + bitsToNat ys := by
      conv_lhs => unfold bitsToNat
      rw [List.foldl_cons, ih]
      simp [bitsToNat]
    rw [ih, hy, pow_succ]
    ring

theorem bitsToNat_append (xs ys : List Bool) :
    bitsToNat (xs ++ ys) =
      bitsToNat xs * 2 ^ ys.length + bitsToNat ys := by
  unfold bitsToNat
  rw [List.foldl_append]
  exact bitsToNat_foldl_shift _ ys

theorem bitsToNat_natToBits (w v : Nat) :
    bitsToNat (natToBits w v) = v % 2 ^ w := by
  induction w generalizing v with
  | zero => simp [natToBits, bitsToNat, Nat.mod_one]
  | succ w ih =>
    have hq := Nat.div_add_mod v 2
    have hlt : v % 2 < 2 := Nat.mod_lt _ (by omega)
    have hm : (0:Nat) < 2 ^ w := Nat.pos_pow_of_pos _ (by omega)
    have hs := Nat.div_add_mod (v / 2) (2 ^ w)
    have hsl : v / 2 % 2 ^ w < 2 ^ w := Nat.mod_lt _ hm
    have key : v % 2 ^ (w + 1) = v / 2 % 2 ^ w * 2 + v % 2 := by
      have h1 : v = 2 * (2 ^ w * (v / 2 / 2 ^ w)) + (v / 2 % 2 ^ w * 2 + v % 2) := by
        omega
      have h2 : 2 * (2 ^ w * (v / 2 / 2 ^ w)) = 2 ^ (w + 1) * (v / 2 / 2 ^ w) := by
        rw [pow_succ]; ring
      have h3 : v / 2 % 2 ^ w * 2 + v % 2 < 2 ^ (w + 1) := by
        rw [pow_succ]; omega
      conv_lhs => rw [h1, h2]
      rw [Nat.mul_add_mod, Nat.mod_eq_of_lt h3]
    have hb : bitsToNat [v % 2 == 1] = v % 2 := by
      rcases Nat.mod_two_eq_zero_or_one v with h | h <;> simp [h, bitsToNat]
    simp only [natToBits, bitsToNat_append, ih, List.length_cons, List.length_nil,
      pow_one, hb, key]
    norm_num

theorem bitsToNat_lt (bs : List Bool) : bitsToNat bs < 2 ^ bs.length := by
  induction bs using List.reverseRecOn with
  | nil => simp [bitsToNat]
  | append_singleton xs b ih =>
    have hb : bitsToNat [b] < 2 := by rcases b <;> simp [bitsToNat]
    have h2 : 2 ^ (xs ++ [b]).length = 2 ^ xs.length * 2 := by
      simp [List.length_append, pow_succ]
    have h3 : ([b] : List Bool).length = 1 := rfl
    rw [bitsToNat_append, h2, h3, pow_one]
    omega

theorem bitsToNat_natToBits_of_lt {w v : Nat} (h : v < 2 ^ w) :
    bitsToNat (natToBits w v) = v := by
  rw [bitsToNat_natToBits, Nat.mod_eq_of_lt h]

/-- TON cell: a bit-string payload plus child references, embedded as an
acyclic inductive tree (see the header on content addressing). -/
inductive Cell where
  | mk (bits : List Bool) (refs : List Cell)

/-- Payload bits of a cell (`cell.bits`). -/
def Cell.bits : Cell → List Bool
  | .mk b _ => b

/-- Child references of a cell (`cell.refs`). -/
def Cell.refs : Cell → List Cell
  | .mk _ r => r

/-- Bit length of a cell's payload (`cell.bits.length`). -/
def Cell.bitLen (c : Cell) : Nat := c.bits.length

mutual

/-- Decidable equality of cells (hash comparison, see the header). -/
def Cell.decEq : (a b : Cell) → Decidable (a = b)
  | .mk b1 r1, .mk b2 r2 =>
    if hb : b1 = b2 then
      match Cell.decEqList r1 r2 with
      | isTrue hr => isTrue (by rw [hb, hr])
      | isFalse hr => isFalse (by intro h; cases h; exact hr rfl)
    else isFalse (by intro h; cases h; exact hb rfl)
  termination_by a _ => sizeOf a

/-- Decidable equality of cell lists. -/
def Cell.decEqList : (xs ys : List Cell) → Decidable (xs = ys)
  | [], [] => isTrue rfl
  | [], _ :: _ => isFalse (by intro h; exact List.noConfusion h)
  | _ :: _, [] => isFalse (by intro h; exact List.noConfusion h)
  | x :: xs, y :: ys =>
    match Cell.decEq x y, Cell.decEqList xs ys with
    | isTrue h1, isTrue h2 => isTrue (by rw [h1, h2])
    | isFalse h1, _ => isFalse (by intro h; injection h; contradiction)
    | isTrue _, isFalse h2 => isFalse (by intro h; injection h; contradiction)
  termination_by xs _ => sizeOf xs

end

instance : DecidableEq Cell := Cell.decEq

theorem Cell.sizeOf_refs_lt (c : Cell) : sizeOf c.refs < sizeOf c := by
  cases c with
  | mk b r =>
    simp only [Cell.refs, Cell.mk.sizeOf_spec]
    omega

/-- Read cursor over a cell's payload bits (the SDK `Slice`; the child
references play no role in the record parsers embedded here). -/
structure Slice where
  bits : List Bool
deriving DecidableEq

/-- Start parsing a cell (`cell.beginParse()`). -/
def Cell.beginParse (c : Cell) : Slice := ⟨c.bits⟩

/-- Model of `slice.loadUint(n)`: consume `n` bits, big-endian; underrun
throws in the SDK and is an error here. -/
def loadUintE (s : Slice) (n : Nat) : Except Err (Nat × Slice) :=
  if n ≤ s.bits.length then
    .ok (bitsToNat (s.bits.take n), ⟨s.bits.drop n⟩)
  else
    .error (.formatError "Index out of bounds")

theorem okBind {e : Type} {a b : Type} (x : a) (f : a → Except e b) :
    (Except.ok x : Except e a) >>= f = f x := rfl

theorem purePure {e : Type} {a : Type} (x : a) :
    (pure x : Except e a) = Except.ok x := rfl

/-- Model of `slice.loadUintBig(n)` (the `bigint`-returning load). -/
def loadUintBigE (s : Slice) (n : Nat) : Except Err (Int × Slice) :=
  (loadUintE s n).map fun p => ((p.1 : Int), p.2)

/-- Model of `slice.preloadUintBig(n)`: peek without consuming. -/
def preloadUintBigE (s : Slice) (n : Nat) : Except Err Int :=
  (loadUintE s n).map fun p => (p.1 : Int)

/-- Model of `slice.skip(n)`. -/
def skipE (s : Slice) (n : Nat) : Except Err Slice :=
  if n ≤ s.bits.length then .ok ⟨s.bits.drop n⟩
  else .error (.formatError "Index out of bounds")

/-- Model of `builder.storeUint(v, w)`: the SDK throws when the value is
negative or does not fit in `w` bits. -/
def storeUintE (v : Int) (w : Nat) : Except Err (List Bool) :=
  if 0 ≤ v ∧ v < 2 ^ w then .ok (natToBits w v.toNat)
  else .error (.formatError "bitLength is too small for a value")

theorem loadUintE_append_of (w : Nat) {v : Nat} (rest xs : List Bool)
    (hlen : xs.length = w) (hval : bitsToNat xs = v) :
    loadUintE ⟨xs ++ rest⟩ w = .ok (v, ⟨rest⟩) := by
  subst hlen
  simp [loadUintE, List.take_left, List.drop_left, hval, Nat.le_add_right]

theorem loadUintE_append {w : Nat} {v : Nat} (rest : List Bool) (h : v < 2 ^ w) :
    loadUintE ⟨natToBits w v ++ rest⟩ w = .ok (v, ⟨rest⟩) :=
  loadUintE_append_of w rest _ (natToBits_length w v) (bitsToNat_natToBits_of_lt h)

theorem storeUintE_ok {v : Int} {w : Nat} (h0 : 0 ≤ v) (h1 : v < 2 ^ w) :
    storeUintE v w = .ok (natToBits w v.toNat) := by
  simp [storeUintE, h0, h1]

theorem loadUintBigE_append {w : Nat} {v : Int} (rest : List Bool)
    (h0 : 0 ≤ v) (h1 : v < 2 ^ w) :
    loadUintBigE ⟨natToBits w v.toNat ++ rest⟩ w = .ok (v, ⟨rest⟩) := by
  have h2 : ((2:Int) ^ w) = ((2 ^ w : Nat) : Int) := by push_cast; ring
  rw [h2] at h1
  have hv : v.toNat < 2 ^ w := by omega
  simp [loadUintBigE, loadUintE_append rest hv, Except.map, Int.toNat_of_nonneg h0]

/-- Gas-price record (`GasPrices` in the source; `bigint` fields). -/
structure GasPrices where
  flat_gas_limit : Int
  flat_gas_price : Int
  gas_price : Int
deriving DecidableEq

/-- Storage-price record (`StorageValue` in the source; the timestamp is
read with `loadUint(32)` into a JS number, the prices are `bigint`).  The
field name `utime_sice` reproduces the source spelling. -/
structure StorageValue where
  utime_sice : Nat
  bit_price_ps : Int
  cell_price_ps : Int
  mc_bit_price_ps : Int
  mc_cell_price_ps : Int
deriving DecidableEq

/-- Message-forwarding price record (the return type of
`configParseMsgPrices`; all fields are `bigint`). -/
structure MsgPrices where
  lumpPrice : Int
  bitPrice : Int
  cellPrice : Int
  ihrPriceFactor : Int
  firstFrac : Int
  nextFrac : Int
deriving DecidableEq

/-- Aggregate size of a cell tree (`StorageStats`; `bigint` fields). -/
structure StorageStats where
  bits : Int
  cells : Int
deriving DecidableEq

/-- Verbose forward-fee result (the return type of
`computeFwdFeesVerbose`). -/
structure FullFees where
  total : Int
  res : Int
  remaining : Int
deriving DecidableEq

/-- Model of `shr16ceil(src)`: TS `src % 65536n` is `Int.tmod`, TS
`src / 65536n` is truncating division `Int.tdiv`; one is added when the
remainder is non-zero. -/
def shr16ceil (src : Int) : Int :=
  let rem := Int.tmod src 65536
  let res := Int.tdiv src 65536
  if rem ≠ 0 then res + 1 else res

/-- Model of `computeGasFee(prices, gas)`. -/
def computeGasFee (prices : GasPrices) (gas : Int) : Int :=
  if gas ≤ prices.flat_gas_limit then
    prices.flat_gas_price
  else
    prices.flat_gas_price + Int.tdiv (prices.gas_price * (gas - prices.flat_gas_limit)) 65536

/-- Model of `calcStorageFee(prices, stats, duration)`. -/
def calcStorageFee (prices : StorageValue) (stats : StorageStats) (duration : Int) : Int :=
  shr16ceil ((stats.bits * prices.bit_price_ps + stats.cells * prices.cell_price_ps) * duration)

/-- Model of `computeFwdFees(msgPrices, cells, bits)`. -/
def computeFwdFees (msgPrices : MsgPrices) (cells : Int) (bits : Int) : Int :=
  msgPrices.lumpPrice + shr16ceil (msgPrices.bitPrice * bits + msgPrices.cellPrice * cells)

/-- Model of `computeFwdFeesVerbose(msgPrices, cells, bits)`: the TS
`>> 16n` on a `bigint` is an arithmetic right shift, i.e. floor division
by 65536 (`Int.fdiv`). -/
def computeFwdFeesVerbose (msgPrices : MsgPrices) (cells : Int) (bits : Int) : FullFees :=
  let fees := computeFwdFees msgPrices cells bits
  let res := Int.fdiv (fees * msgPrices.firstFrac) 65536
  { total := fees, res := res, remaining := fees - res }

theorem shr16ceil_bounds {x : Int} (hx : 0 ≤ x) :
    x ≤ 65536 * shr16ceil x ∧ 65536 * shr16ceil x < x + 65536 ∧ 0 ≤ shr16ceil x := by
  have hdiv : Int.tdiv x 65536 = x / 65536 := Int.tdiv_eq_ediv hx (by norm_num)
  have hmod : Int.tmod x 65536 = x % 65536 := Int.tmod_eq_emod hx (by norm_num)
  have hem := Int.ediv_add_emod x 65536
  have h0 : 0 ≤ x % 65536 := Int.emod_nonneg x (by norm_num)
  have h1 : x % 65536 < 65536 := Int.emod_lt_of_pos x (by norm_num)
  unfold shr16ceil
  by_cases h : x % 65536 = 0 <;> simp [hdiv, hmod, h] <;> omega

/-- C1: `computeGasFee` returns the flat price up to the flat limit and
the flat price plus the truncated 16-bit-scaled overage above it, with
the two boundary identities from the spec. -/
theorem computeGasFee_spec (p : GasPrices) (g : Int) (hg : 0 ≤ g) :
    (g ≤ p.flat_gas_limit → computeGasFee p g = p.flat_gas_price) ∧
    (¬ g ≤ p.flat_gas_limit →
      computeGasFee p g =
        p.flat_gas_price + Int.tdiv (p.gas_price * (g - p.flat_gas_limit)) 65536) ∧
    computeGasFee p p.flat_gas_limit = p.flat_gas_price ∧
    computeGasFee p (p.flat_gas_limit + 65536) = p.flat_gas_price + p.gas_price := by
  refine ⟨fun h => by simp [computeGasFee, h], fun h => by simp [computeGasFee, h], ?_, ?_⟩
  · simp [computeGasFee]
  · have hlt : ¬ p.flat_gas_limit + 65536 ≤ p.flat_gas_limit := by omega
    simp only [computeGasFee, if_neg hlt, add_sub_cancel_left]
    rw [Int.mul_tdiv_cancel _ (by norm_num)]

theorem computeGasFee_spec_witness :
    (0:Int) ≤ 200 ∧
    computeGasFee ⟨100, 1000000, 65536000⟩ 100 = 1000000 ∧
    computeGasFee ⟨100, 1000000, 65536000⟩ 200 = 1100000 := by
  have h := computeGasFee_spec ⟨100, 1000000, 65536000⟩ 200 (by decide)
  refine ⟨by decide, ?_, ?_⟩
  · have h1 := h.2.2.1
    simpa using h1
  · rw [h.2.1 (by decide)]
    decide

/-- C2: `calcStorageFee` is the ceiling 16-bit right shift of
bits-price-plus-cells-price times duration: it equals the truncated
quotient plus one exactly when the remainder is non-zero, is zero at
duration zero, and for non-negative prices it is the exact integer
ceiling of the product divided by 65536. -/
theorem calcStorageFee_spec (p : StorageValue) (s : StorageStats) (d : Int)
    (hb : 0 ≤ s.bits) (hc : 0 ≤ s.cells) (hd : 0 ≤ d) :
    (calcStorageFee p s d =
      (if Int.tmod ((s.bits * p.bit_price_ps + s.cells * p.cell_price_ps) * d) 65536 = 0 then
        Int.tdiv ((s.bits * p.bit_price_ps + s.cells * p.cell_price_ps) * d) 65536
      else
        Int.tdiv ((s.bits * p.bit_price_ps + s.cells * p.cell_price_ps) * d) 65536 + 1)) ∧
    calcStorageFee p s 0 = 0 ∧
    (0 ≤ p.bit_price_ps → 0 ≤ p.cell_price_ps →
      (s.bits * p.bit_price_ps + s.cells * p.cell_price_ps) * d ≤
          65536 * calcStorageFee p s d ∧
        65536 * calcStorageFee p s d <
          (s.bits * p.bit_price_ps + s.cells * p.cell_price_ps) * d + 65536) := by
  refine ⟨?_, ?_, ?_⟩
  · unfold calcStorageFee shr16ceil
    by_cases h : Int.tmod ((s.bits * p.bit_price_ps + s.cells * p.cell_price_ps) * d) 65536 = 0 <;>
      simp [h]
  · simp [calcStorageFee, shr16ceil]
  · intro hbp hcp
    have hx : 0 ≤ (s.bits * p.bit_price_ps + s.cells * p.cell_price_ps) * d :=
      mul_nonneg (add_nonneg (mul_nonneg hb hbp) (mul_nonneg hc hcp)) hd
    have h := shr16ceil_bounds hx
    exact ⟨h.1, h.2.1⟩

theorem calcStorageFee_spec_witness :
    ((0:Int) ≤ 1000 ∧ (0:Int) ≤ 5 ∧ (0:Int) ≤ 3600) ∧
    calcStorageFee ⟨0, 1, 500, 0, 0⟩ ⟨1000, 5⟩ 0 = 0 ∧
    calcStorageFee ⟨0, 1, 500, 0, 0⟩ ⟨1000, 5⟩ 3600 = 193 := by
  have h := calcStorageFee_spec ⟨0, 1, 500, 0, 0⟩ ⟨1000, 5⟩ 3600 (by decide) (by decide) (by decide)
  refine ⟨⟨by decide, by decide, by decide⟩, h.2.1, ?_⟩
  rw [h.1]
  decide

/-- C10: with parse-shaped message prices (non-negative fields,
`firstFrac` below `2 ^ 16`) and non-negative sizes, the verbose forward
fee splits into a share and a remainder that are both between zero and
the total. -/
theorem computeFwdFeesVerbose_split_bounds (p : MsgPrices) (cells bits : Int)
    (hl : 0 ≤ p.lumpPrice) (hbp : 0 ≤ p.bitPrice) (hcp : 0 ≤ p.cellPrice)
    (hf0 : 0 ≤ p.firstFrac) (hf1 : p.firstFrac < 65536)
    (hc : 0 ≤ cells) (hb : 0 ≤ bits) :
    0 ≤ (computeFwdFeesVerbose p cells bits).res ∧
    (computeFwdFeesVerbose p cells bits).res ≤ (computeFwdFeesVerbose p cells bits).total ∧
    0 ≤ (computeFwdFeesVerbose p cells bits).remaining ∧
    (computeFwdFeesVerbose p cells bits).remaining ≤ (computeFwdFeesVerbose p cells bits).total ∧
    (computeFwdFeesVerbose p cells bits).res + (computeFwdFeesVerbose p cells bits).remaining =
      (computeFwdFeesVerbose p cells bits).total := by
  have hx : 0 ≤ p.bitPrice * bits + p.cellPrice * cells :=
    add_nonneg (mul_nonneg hbp hb) (mul_nonneg hcp hc)
  have hfees : 0 ≤ computeFwdFees p cells bits :=
    add_nonneg hl (shr16ceil_bounds hx).2.2
  have hfd : Int.fdiv (computeFwdFees p cells bits * p.firstFrac) 65536 =
      (computeFwdFees p cells bits * p.firstFrac) / 65536 :=
    Int.fdiv_eq_ediv _ (by norm_num)
  have hres0 : 0 ≤ (computeFwdFees p cells bits * p.firstFrac) / 65536 :=
    Int.ediv_nonneg (mul_nonneg hfees hf0) (by norm_num)
  have hresle : (computeFwdFees p cells bits * p.firstFrac) / 65536 ≤ computeFwdFees p cells bits := by
    have hmul : computeFwdFees p cells bits * p.firstFrac ≤ computeFwdFees p cells bits * 65536 :=
      mul_le_mul_of_nonneg_left hf1.le hfees
    have hdd := Int.ediv_le_ediv (by norm_num : (0:Int) < 65536) hmul
    rwa [Int.mul_ediv_cancel _ (by norm_num)] at hdd
  simp only [computeFwdFeesVerbose, hfd]
  refine ⟨hres0, hresle, by omega, by omega, by omega⟩

theorem computeFwdFeesVerbose_split_bounds_witness :
    ((0:Int) ≤ 400000 ∧ (0:Int) ≤ 26214400 ∧ (0:Int) ≤ 102400 ∧
      (0:Int) ≤ 21845 ∧ (21845:Int) < 65536 ∧ (0:Int) ≤ 3 ∧ (0:Int) ≤ 1024) ∧
    0 ≤ (computeFwdFeesVerbose ⟨400000, 26214400, 102400, 98304, 21845, 21845⟩ 3 1024).res ∧
    (computeFwdFeesVerbose ⟨400000, 26214400, 102400, 98304, 21845, 21845⟩ 3 1024).res ≤
      (computeFwdFeesVerbose ⟨400000, 26214400, 102400, 98304, 21845, 21845⟩ 3 1024).total := by
  have h := computeFwdFeesVerbose_split_bounds ⟨400000, 26214400, 102400, 98304, 21845, 21845⟩
    3 1024 (by decide) (by decide) (by decide) (by decide) (by decide) (by decide) (by decide)
  exact ⟨⟨by decide, by decide, by decide, by decide, by decide, by decide, by decide⟩, h.1, h.2.1⟩

/-- Config blob: the outer config dictionary keyed by signed 32-bit ints.
Every source function immediately does
`configRaw.beginParse().loadDictDirect(...)` and finally
`beginCell().storeDictDirect(config).endCell()`; that SDK-owned hashmap
encoding is a bijection onto key-sorted association lists, and is embedded
as the identity on them (see the header). -/
abbrev Config : Type := List (Int × Cell)

/-- Model of `Dictionary.get(k)` on the outer config dictionary. -/
def dictGet (d : Config) (k : Int) : Option Cell :=
  List.lookup k d

/-- Model of `Dictionary.set(k, v)` followed by re-serialization of the
outer config dictionary: replace the entry when the key is present,
otherwise insert at the key's sorted position (the canonical order the
trie wire format imposes). -/
def dictSet (d : Config) (k : Int) (v : Cell) : Config :=
  match d with
  | [] => [(k, v)]
  | (k', v') :: rest =>
    if k = k' then (k, v) :: rest
    else if k < k' then (k, v) :: (k', v') :: rest
    else (k', v') :: dictSet rest k v

theorem dictGet_dictSet_self (d : Config) (k : Int) (v : Cell) :
    dictGet (dictSet d k v) k = some v := by
  induction d with
  | nil => simp [dictGet, dictSet, List.lookup]
  | cons e rest ih =>
    obtain ⟨k', v'⟩ := e
    by_cases h1 : k = k'
    · simp [dictGet, dictSet, h1, List.lookup]
    · by_cases h2 : k < k'
      · simp [dictGet, dictSet, h1, h2, List.lookup]
      · have hne : (k == k') = false := by simp [h1]
        simp only [dictGet, dictSet, if_neg h1, if_neg h2, List.lookup, hne]
        exact ih

/-- Model of `getGasPrices(configRaw, workchain)` (spec name
`parseGasPrices`).  The `config.get(21 + workchain)!` of the source
dereferences `undefined` when the key is absent, raising a `TypeError`;
that is the `keyNotFound` branch. -/
def getGasPrices (config : Config) (workchain : Int) : Except Err GasPrices :=
  match dictGet config (21 + workchain) with
  | none => .error (.keyNotFound "Cannot read properties of undefined")
  | some c => do
    let s0 := c.beginParse
    let (tag1, s1) ← loadUintE s0 8
    if tag1 ≠ 0xd1 then
      .error (.formatError "Invalid flat gas prices tag!")
    else do
      let (flat_gas_limit, s2) ← loadUintBigE s1 64
      let (flat_gas_price, s3) ← loadUintBigE s2 64
      let (tag2, s4) ← loadUintE s3 8
      if tag2 ≠ 0xde then
        .error (.formatError "Invalid gas prices tag!")
      else do
        let gas_price ← preloadUintBigE s4 64
        pure { flat_gas_limit, flat_gas_price, gas_price }

/-- Model of `setGasPrice(configRaw, prices, workchain)` (spec name
`serializeGasPrices`): rebuilds the tagged record, re-appends the bits
after position 8+64+64+8+64 = 208 unchanged, and keeps the record cell's
references (the SDK `storeSlice` copies both). -/
def setGasPrice (config : Config) (prices : GasPrices) (workchain : Int) : Except Err Config :=
  match dictGet config (21 + workchain) with
  | none => .error (.keyNotFound "Cannot read properties of undefined")
  | some c =>
    if 208 ≤ c.bits.length then do
      let b1 ← storeUintE 0xd1 8
      let b2 ← storeUintE prices.flat_gas_limit 64
      let b3 ← storeUintE prices.flat_gas_price 64
      let b4 ← storeUintE 0xde 8
      let b5 ← storeUintE prices.gas_price 64
      let newPrices : Cell := .mk (b1 ++ b2 ++ b3 ++ b4 ++ b5 ++ c.bits.drop 208) c.refs
      pure (dictSet config (21 + workchain) newPrices)
    else
      .error (.formatError "Index out of bounds")

/-- Model of `configParseMsgPrices(sc)` (spec name `parseMsgPrices`). -/
def configParseMsgPrices (sc : Slice) : Except Err MsgPrices := do
  let (magic, s1) ← loadUintE sc 8
  if magic ≠ 0xea then
    .error (.formatError "Invalid message prices magic number!")
  else do
    let (lumpPrice, s2) ← loadUintBigE s1 64
    let (bitPrice, s3) ← loadUintBigE s2 64
    let (cellPrice, s4) ← loadUintBigE s3 64
    let (ihrPriceFactor, s5) ← loadUintBigE s4 32
    let (firstFrac, s6) ← loadUintBigE s5 16
    let (nextFrac, _) ← loadUintBigE s6 16
    pure { lumpPrice, bitPrice, cellPrice, ihrPriceFactor, firstFrac, nextFrac }

/-- Model of `setMsgPrices(configRaw, prices, workchain)` (spec name
`serializeMsgPrices`): builds the tagged record cell and stores it at key
`25 + workchain`. -/
def setMsgPrices (config : Config) (prices : MsgPrices) (workchain : Int) : Except Err Config := do
  let b1 ← storeUintE 0xea 8
  let b2 ← storeUintE prices.lumpPrice 64
  let b3 ← storeUintE prices.bitPrice 64
  let b4 ← storeUintE prices.cellPrice 64
  let b5 ← storeUintE prices.ihrPriceFactor 32
  let b6 ← storeUintE prices.firstFrac 16
  let b7 ← storeUintE prices.nextFrac 16
  let priceCell : Cell := .mk (b1 ++ b2 ++ b3 ++ b4 ++ b5 ++ b6 ++ b7) []
  pure (dictSet config (25 + workchain) priceCell)

/-- Model of `getMsgPrices(configRaw, workchain)`. -/
def getMsgPrices (config : Config) (workchain : Int) : Except Err MsgPrices :=
  match dictGet config (25 + workchain) with
  | none => .error (.keyNotFound "No prices defined in config")
  | some prices => configParseMsgPrices prices.beginParse

theorem preloadUintBigE_append {w : Nat} {v : Int} (rest : List Bool)
    (h0 : 0 ≤ v) (h1 : v < 2 ^ w) :
    preloadUintBigE ⟨natToBits w v.toNat ++ rest⟩ w = .ok v := by
  have h2 : ((2:Int) ^ w) = ((2 ^ w : Nat) : Int) := by push_cast; ring
  rw [h2] at h1
  have hv : v.toNat < 2 ^ w := by omega
  simp [preloadUintBigE, loadUintE_append rest hv, Except.map, Int.toNat_of_nonneg h0]

theorem setGasPrice_eq (config : Config) (p : GasPrices) (w : Int) (c : Cell)
    (hc : dictGet config (21 + w) = some c) (hlen : 208 ≤ c.bits.length)
    (h1 : 0 ≤ p.flat_gas_limit) (h2 : p.flat_gas_limit < 2 ^ 64)
    (h3 : 0 ≤ p.flat_gas_price) (h4 : p.flat_gas_price < 2 ^ 64)
    (h5 : 0 ≤ p.gas_price) (h6 : p.gas_price < 2 ^ 64) :
    setGasPrice config p w = .ok (dictSet config (21 + w)
      (Cell.mk (natToBits 8 0xd1 ++ natToBits 64 p.flat_gas_limit.toNat ++
        natToBits 64 p.flat_gas_price.toNat ++ natToBits 8 0xde ++
        natToBits 64 p.gas_price.toNat ++ c.bits.drop 208) c.refs)) := by
  have e1 : storeUintE 0xd1 8 = .ok (natToBits 8 0xd1) := by
    rw [storeUintE_ok (by norm_num) (by norm_num)]
    rfl
  have e4 : storeUintE 0xde 8 = .ok (natToBits 8 0xde) := by
    rw [storeUintE_ok (by norm_num) (by norm_num)]
    rfl
  simp only [setGasPrice, hc, hlen, if_true, e1, e4, okBind, purePure,
    storeUintE_ok h1 h2, storeUintE_ok h3 h4, storeUintE_ok h5 h6]

theorem getGasPrices_ok (config : Config) (w : Int) (p : GasPrices)
    (tail : List Bool) (refs : List Cell)
    (h1 : 0 ≤ p.flat_gas_limit) (h2 : p.flat_gas_limit < 2 ^ 64)
    (h3 : 0 ≤ p.flat_gas_price) (h4 : p.flat_gas_price < 2 ^ 64)
    (h5 : 0 ≤ p.gas_price) (h6 : p.gas_price < 2 ^ 64)
    (hc : dictGet config (21 + w) = some (Cell.mk
      (natToBits 8 0xd1 ++ natToBits 64 p.flat_gas_limit.toNat ++
        natToBits 64 p.flat_gas_price.toNat ++ natToBits 8 0xde ++
        natToBits 64 p.gas_price.toNat ++ tail) refs)) :
    getGasPrices config w = .ok p := by
  have t1 := loadUintE_append (w := 8) (v := 0xd1)
    (natToBits 64 p.flat_gas_limit.toNat ++ natToBits 64 p.flat_gas_price.toNat ++
      natToBits 8 0xde ++ natToBits 64 p.gas_price.toNat ++ tail) (by norm_num)
  have t2 := loadUintBigE_append (w := 64) (v := p.flat_gas_limit)
    (natToBits 64 p.flat_gas_price.toNat ++ natToBits 8 0xde ++
      natToBits 64 p.gas_price.toNat ++ tail) h1 h2
  have t3 := loadUintBigE_append (w := 64) (v := p.flat_gas_price)
    (natToBits 8 0xde ++ natToBits 64 p.gas_price.toNat ++ tail) h3 h4
  have t4 := loadUintE_append (w := 8) (v := 0xde)
    (natToBits 64 p.gas_price.toNat ++ tail) (by norm_num)
  have t5 := preloadUintBigE_append (w := 64) (v := p.gas_price) tail h5 h6
  simp only [List.append_assoc] at hc t1 t2 t3 t4 t5
  simp [getGasPrices, hc, Cell.beginParse, Cell.bits, t1, t2, t3, t4, t5, okBind, purePure]

/-- C6: storing valid gas prices at key `21 + workchain` over an existing
record of at least 208 bits and parsing them back returns the same
prices. -/
theorem parseGasPrices_serializeGasPrices (config : Config) (p : GasPrices) (w : Int) (c : Cell)
    (hw : w = 0 ∨ w = -1)
    (hc : dictGet config (21 + w) = some c) (hlen : 208 ≤ c.bits.length)
    (h1 : 0 ≤ p.flat_gas_limit) (h2 : p.flat_gas_limit < 2 ^ 64)
    (h3 : 0 ≤ p.flat_gas_price) (h4 : p.flat_gas_price < 2 ^ 64)
    (h5 : 0 ≤ p.gas_price) (h6 : p.gas_price < 2 ^ 64) :
    ∃ config2, setGasPrice config p w = .ok config2 ∧ getGasPrices config2 w = .ok p := by
  refine ⟨_, setGasPrice_eq config p w c hc hlen h1 h2 h3 h4 h5 h6, ?_⟩
  exact getGasPrices_ok _ w p (c.bits.drop 208) c.refs h1 h2 h3 h4 h5 h6
    (dictGet_dictSet_self _ _ _)

theorem parseGasPrices_serializeGasPrices_witness :
    ((0:Int) = 0 ∨ (0:Int) = -1) ∧
    dictGet [((21:Int), Cell.mk (List.replicate 208 false) [])] (21 + 0) =
      some (Cell.mk (List.replicate 208 false) []) ∧
    208 ≤ (Cell.mk (List.replicate 208 false) []).bits.length ∧
    (∃ config2,
      setGasPrice [((21:Int), Cell.mk (List.replicate 208 false) [])] ⟨100, 1000000, 65536000⟩ 0 =
        .ok config2 ∧
      getGasPrices config2 0 = .ok ⟨100, 1000000, 65536000⟩) := by
  have hlen : 208 ≤ (Cell.mk (List.replicate 208 false) []).bits.length := by
    rw [show (Cell.mk (List.replicate 208 false) []).bits = List.replicate 208 false from rfl,
      List.length_replicate]
  refine ⟨Or.inl rfl, rfl, hlen, ?_⟩
  exact parseGasPrices_serializeGasPrices _ ⟨100, 1000000, 65536000⟩ 0 _ (Or.inl rfl) rfl
    hlen (by norm_num) (by norm_num) (by norm_num) (by norm_num) (by norm_num) (by norm_num)

/-- C9: `setGasPrice` rewrites the tagged gas record and re-appends the
bits that followed position 208 of the original record unchanged, keeping
the record cell's references; everything after the rewritten fields is
bit-for-bit the original tail. -/
theorem serializeGasPrices_preserves_tail (config : Config) (p : GasPrices) (w : Int) (c : Cell)
    (hc : dictGet config (21 + w) = some c) (hlen : 208 ≤ c.bits.length)
    (h1 : 0 ≤ p.flat_gas_limit) (h2 : p.flat_gas_limit < 2 ^ 64)
    (h3 : 0 ≤ p.flat_gas_price) (h4 : p.flat_gas_price < 2 ^ 64)
    (h5 : 0 ≤ p.gas_price) (h6 : p.gas_price < 2 ^ 64) :
    ∃ config2 c2, setGasPrice config p w = .ok config2 ∧
      dictGet config2 (21 + w) = some c2 ∧
      c2.bits = natToBits 8 0xd1 ++ natToBits 64 p.flat_gas_limit.toNat ++
        natToBits 64 p.flat_gas_price.toNat ++ natToBits 8 0xde ++
        natToBits 64 p.gas_price.toNat ++ c.bits.drop 208 ∧
      c2.bits.drop 208 = c.bits.drop 208 ∧
      c2.refs = c.refs := by
  refine ⟨_, _, setGasPrice_eq config p w c hc hlen h1 h2 h3 h4 h5 h6,
    dictGet_dictSet_self _ _ _, rfl, ?_, rfl⟩
  show (natToBits 8 0xd1 ++ natToBits 64 p.flat_gas_limit.toNat ++
      natToBits 64 p.flat_gas_price.toNat ++ natToBits 8 0xde ++
      natToBits 64 p.gas_price.toNat ++ c.bits.drop 208).drop 208 = c.bits.drop 208
  generalize c.bits.drop 208 = tail
  have hpre : (natToBits 8 0xd1 ++ natToBits 64 p.flat_gas_limit.toNat ++
      natToBits 64 p.flat_gas_price.toNat ++ natToBits 8 0xde ++
      natToBits 64 p.gas_price.toNat).length = 208 := by
    simp [List.length_append, natToBits_length]
  conv_lhs => rw [← hpre]
  exact List.drop_left _ _

theorem serializeGasPrices_preserves_tail_witness :
    dictGet [((20:Int), Cell.mk (List.replicate 210 true) [Cell.mk [] []])] (21 + -1) =
      some (Cell.mk (List.replicate 210 true) [Cell.mk [] []]) ∧
    208 ≤ (Cell.mk (List.replicate 210 true) [Cell.mk [] []]).bits.length ∧
    (∃ config2 c2,
      setGasPrice [((20:Int), Cell.mk (List.replicate 210 true) [Cell.mk [] []])]
        ⟨1, 2, 3⟩ (-1) = .ok config2 ∧
      dictGet config2 (21 + -1) = some c2 ∧
      c2.bits = natToBits 8 0xd1 ++ natToBits 64 (1:Int).toNat ++
        natToBits 64 (2:Int).toNat ++ natToBits 8 0xde ++ natToBits 64 (3:Int).toNat ++
        (Cell.mk (List.replicate 210 true) [Cell.mk [] []]).bits.drop 208 ∧
      c2.bits.drop 208 = (Cell.mk (List.replicate 210 true) [Cell.mk [] []]).bits.drop 208 ∧
      c2.refs = (Cell.mk (List.replicate 210 true) [Cell.mk [] []]).refs) := by
  have hlen : 208 ≤ (Cell.mk (List.replicate 210 true) [Cell.mk [] []]).bits.length := by
    rw [show (Cell.mk (List.replicate 210 true) [Cell.mk [] []]).bits =
      List.replicate 210 true from rfl, List.length_replicate]
    omega
  refine ⟨rfl, hlen, ?_⟩
  exact serializeGasPrices_preserves_tail _ ⟨1, 2, 3⟩ (-1) _ rfl hlen
    (by norm_num) (by norm_num) (by norm_num) (by norm_num) (by norm_num) (by norm_num)

theorem loadUintBigE_exact {w : Nat} {v : Int} (h0 : 0 ≤ v) (h1 : v < 2 ^ w) :
    loadUintBigE ⟨natToBits w v.toNat⟩ w = .ok (v, ⟨[]⟩) := by
  have h := loadUintBigE_append [] h0 h1
  simpa using h

/-- C8: storing valid message prices at key `25 + workchain` and parsing
the entry found there returns the same prices. -/
theorem parseMsgPrices_serializeMsgPrices (config : Config) (p : MsgPrices) (w : Int)
    (hw : w = 0 ∨ w = -1)
    (h1 : 0 ≤ p.lumpPrice) (h2 : p.lumpPrice < 2 ^ 64)
    (h3 : 0 ≤ p.bitPrice) (h4 : p.bitPrice < 2 ^ 64)
    (h5 : 0 ≤ p.cellPrice) (h6 : p.cellPrice < 2 ^ 64)
    (h7 : 0 ≤ p.ihrPriceFactor) (h8 : p.ihrPriceFactor < 2 ^ 32)
    (h9 : 0 ≤ p.firstFrac) (h10 : p.firstFrac < 2 ^ 16)
    (h11 : 0 ≤ p.nextFrac) (h12 : p.nextFrac < 2 ^ 16) :
    ∃ config2 c2, setMsgPrices config p w = .ok config2 ∧
      dictGet config2 (25 + w) = some c2 ∧
      configParseMsgPrices c2.beginParse = .ok p := by
  have etag : storeUintE 0xea 8 = .ok (natToBits 8 0xea) := by
    rw [storeUintE_ok (by norm_num) (by norm_num)]
    rfl
  have hset : setMsgPrices config p w = .ok (dictSet config (25 + w)
      (Cell.mk (natToBits 8 0xea ++ natToBits 64 p.lumpPrice.toNat ++
        natToBits 64 p.bitPrice.toNat ++ natToBits 64 p.cellPrice.toNat ++
        natToBits 32 p.ihrPriceFactor.toNat ++ natToBits 16 p.firstFrac.toNat ++
        natToBits 16 p.nextFrac.toNat) [])) := by
    simp only [setMsgPrices, etag, okBind, purePure, storeUintE_ok h1 h2,
      storeUintE_ok h3 h4, storeUintE_ok h5 h6, storeUintE_ok h7 h8,
      storeUintE_ok h9 h10, storeUintE_ok h11 h12]
  refine ⟨_, _, hset, dictGet_dictSet_self _ _ _, ?_⟩
  have t1 := loadUintE_append (w := 8) (v := 0xea)
    (natToBits 64 p.lumpPrice.toNat ++ natToBits 64 p.bitPrice.toNat ++
      natToBits 64 p.cellPrice.toNat ++ natToBits 32 p.ihrPriceFactor.toNat ++
      natToBits 16 p.firstFrac.toNat ++ natToBits 16 p.nextFrac.toNat) (by norm_num)
  have t2 := loadUintBigE_append (w := 64) (v := p.lumpPrice)
    (natToBits 64 p.bitPrice.toNat ++ natToBits 64 p.cellPrice.toNat ++
      natToBits 32 p.ihrPriceFactor.toNat ++ natToBits 16 p.firstFrac.toNat ++
      natToBits 16 p.nextFrac.toNat) h1 h2
  have t3 := loadUintBigE_append (w := 64) (v := p.bitPrice)
    (natToBits 64 p.cellPrice.toNat ++ natToBits 32 p.ihrPriceFactor.toNat ++
      natToBits 16 p.firstFrac.toNat ++ natToBits 16 p.nextFrac.toNat) h3 h4
  have t4 := loadUintBigE_append (w := 64) (v := p.cellPrice)
    (natToBits 32 p.ihrPriceFactor.toNat ++ natToBits 16 p.firstFrac.toNat ++
      natToBits 16 p.nextFrac.toNat) h5 h6
  have t5 := loadUintBigE_append (w := 32) (v := p.ihrPriceFactor)
    (natToBits 16 p.firstFrac.toNat ++ natToBits 16 p.nextFrac.toNat) h7 h8
  have t6 := loadUintBigE_append (w := 16) (v := p.firstFrac)
    (natToBits 16 p.nextFrac.toNat) h9 h10
  have t7 := loadUintBigE_exact (w := 16) (v := p.nextFrac) h11 h12
  simp only [List.append_assoc] at t1 t2 t3 t4 t5 t6
  simp [configParseMsgPrices, Cell.beginParse, Cell.bits, List.append_assoc,
    t1, t2, t3, t4, t5, t6, t7, okBind, purePure]

theorem parseMsgPrices_serializeMsgPrices_witness :
    ((0:Int) = 0 ∨ (0:Int) = -1) ∧
    (∃ config2 c2,
      setMsgPrices [] ⟨400000, 26214400, 102400, 98304, 21845, 21845⟩ 0 = .ok config2 ∧
      dictGet config2 (25 + 0) = some c2 ∧
      configParseMsgPrices c2.beginParse = .ok ⟨400000, 26214400, 102400, 98304, 21845, 21845⟩) := by
  refine ⟨Or.inl rfl, ?_⟩
  exact parseMsgPrices_serializeMsgPrices [] ⟨400000, 26214400, 102400, 98304, 21845, 21845⟩ 0
    (Or.inl rfl) (by norm_num) (by norm_num) (by norm_num) (by norm_num) (by norm_num)
    (by norm_num) (by norm_num) (by norm_num) (by norm_num) (by norm_num) (by norm_num)
    (by norm_num)

theorem bind_ok_inv {e a b : Type} {x : Except e a} {f : a → Except e b} {v : b}
    (h : x >>= f = .ok v) : ∃ u, x = .ok u ∧ f u = .ok v := by
  cases x with
  | ok u => exact ⟨u, rfl, h⟩
  | error err =>
    have hh : (Except.error err >>= f : Except e b) = Except.error err := rfl
    rw [hh] at h
    exact Except.noConfusion h

theorem storeUintE_ok_inv {v : Int} {w : Nat} {bs : List Bool}
    (h : storeUintE v w = .ok bs) :
    0 ≤ v ∧ v < 2 ^ w ∧ bs = natToBits w v.toNat := by
  unfold storeUintE at h
  split at h
  · rename_i hcond
    exact ⟨hcond.1, hcond.2, (Except.ok.injEq _ _ ▸ h).symm⟩
  · exact Except.noConfusion h

theorem loadUintE_ok_of_length {s : Slice} {n : Nat} (h : n ≤ s.bits.length) :
    loadUintE s n = .ok (bitsToNat (s.bits.take n), ⟨s.bits.drop n⟩) := by
  unfold loadUintE
  rw [if_pos h]

theorem loadUintE_ok_inv {s : Slice} {n : Nat} {u : Nat} {s2 : Slice}
    (h : loadUintE s n = .ok (u, s2)) :
    u < 2 ^ n ∧ u = bitsToNat (s.bits.take n) ∧ s2 = ⟨s.bits.drop n⟩ := by
  unfold loadUintE at h
  split at h
  · injection h with h
    injection h with h1 h2
    refine ⟨?_, h1.symm, h2.symm⟩
    subst h1
    calc bitsToNat (s.bits.take n) < 2 ^ (s.bits.take n).length := bitsToNat_lt _
    _ ≤ 2 ^ n := Nat.pow_le_pow_right (by omega) (by simp [List.length_take])
  · exact Except.noConfusion h

theorem loadUintBigE_ok_inv {s : Slice} {n : Nat} {u : Int} {s2 : Slice}
    (h : loadUintBigE s n = .ok (u, s2)) :
    0 ≤ u ∧ u < 2 ^ n ∧ u = (bitsToNat (s.bits.take n) : Int) ∧ s2 = ⟨s.bits.drop n⟩ := by
  unfold loadUintBigE Except.map at h
  split at h
  · exact Except.noConfusion h
  · rename_i p heq
    obtain ⟨p1, p2⟩ := p
    simp only at h
    injection h with h
    injection h with h1 h2
    have hi := loadUintE_ok_inv heq
    refine ⟨?_, ?_, ?_, ?_⟩
    · rw [← h1]; positivity
    · rw [← h1]
      have hlt := hi.1
      calc ((p1 : Nat) : Int) < ((2 ^ n : Nat) : Int) := by exact_mod_cast hlt
      _ = 2 ^ n := by push_cast; ring
    · rw [← h1, hi.2.1]
    · rw [← h2, hi.2.2]

/-- Model of `storageValue.serialize`: tag `0xcc`, 32-bit timestamp, four
64-bit prices. -/
def storageValueSerialize (src : StorageValue) : Except Err (List Bool) := do
  let b0 ← storeUintE 0xcc 8
  let b1 ← storeUintE (src.utime_sice : Int) 32
  let b2 ← storeUintE src.bit_price_ps 64
  let b3 ← storeUintE src.cell_price_ps 64
  let b4 ← storeUintE src.mc_bit_price_ps 64
  let b5 ← storeUintE src.mc_cell_price_ps 64
  pure (b0 ++ b1 ++ b2 ++ b3 ++ b4 ++ b5)

/-- Model of `storageValue.parse`: the source does `src.skip(8)` before
the loads - the 8 skipped tag bits are NOT validated against `0xcc`. -/
def storageValueParse (src : Slice) : Except Err (StorageValue × Slice) := do
  let s0 ← skipE src 8
  let (utime_sice, s1) ← loadUintE s0 32
  let (bit_price_ps, s2) ← loadUintBigE s1 64
  let (cell_price_ps, s3) ← loadUintBigE s2 64
  let (mc_bit_price_ps, s4) ← loadUintBigE s3 64
  let (mc_cell_price_ps, s5) ← loadUintBigE s4 64
  pure ({ utime_sice, bit_price_ps, cell_price_ps, mc_bit_price_ps, mc_cell_price_ps }, s5)

/-- Inner storage-price dictionary at config key 18: `Uint(32)` keys to
`StorageValue` records, in ascending key order (the order the SDK's
`values()` returns after a load). -/
abbrev StorageDict : Type := List (Nat × StorageValue)

/-- Model of `Dictionary.set(k, v)` on the inner dictionary followed by
re-serialization: replace when present, else insert in key order. -/
def storageDictSet (d : StorageDict) (k : Nat) (v : StorageValue) : StorageDict :=
  match d with
  | [] => [(k, v)]
  | (k', v') :: rest =>
    if k = k' then (k, v) :: rest
    else if k < k' then (k, v) :: (k', v') :: rest
    else (k', v') :: storageDictSet rest k v

/-- Bits of the serialized inner dictionary: the concatenation of
(32-bit key, 296-bit record) chunks in list order (the stand-in for the
SDK trie wire format, see the header). -/
def storeStorageDictBits : StorageDict → Except Err (List Bool)
  | [] => .ok []
  | (k, v) :: rest => do
    let kb ← storeUintE (k : Int) 32
    let vb ← storageValueSerialize v
    let rb ← storeStorageDictBits rest
    pure (kb ++ vb ++ rb)

/-- Model of `beginCell().storeDictDirect(storageData).endCell()` for the
inner dictionary. -/
def storeStorageDict (d : StorageDict) : Except Err Cell :=
  (storeStorageDictBits d).map fun bs => Cell.mk bs []

/-- Model of `Dictionary.loadDirect(Keys.Uint(32), storageValue, cell)`:
peel (32-bit key, 296-bit record) chunks; the fuel argument (instantiated
with the bit length, which bounds the number of chunks) only makes the
recursion structural. -/
def loadStorageDictGo : Nat → List Bool → Except Err StorageDict
  | _, [] => .ok []
  | 0, _ :: _ => .error (.formatError "Invalid dictionary")
  | fuel + 1, b :: bs =>
    if 328 ≤ (b :: bs).length then
      match storageValueParse ⟨((b :: bs).drop 32).take 296⟩ with
      | .error e => .error e
      | .ok (v, _) =>
        (loadStorageDictGo fuel ((b :: bs).drop 328)).map fun rest =>
          (bitsToNat ((b :: bs).take 32), v) :: rest
    else .error (.formatError "Invalid dictionary")

/-- Load the inner dictionary from its cell.  A present zero-bit cell is
NOT a valid serialized dictionary: the SDK's `parseDict` unconditionally
reads the root trie label and underruns, throwing out of bounds - only
the falsy/absent-key argument of `Dictionary.loadDirect` produces the
empty dictionary (see `getStoragePrices`). -/
def loadStorageDict (c : Cell) : Except Err StorageDict :=
  if c.bits.isEmpty then .error (.formatError "Index out of bounds")
  else loadStorageDictGo c.bits.length c.bits

/-- Model of `getStoragePrices(configRaw)` (spec name
`parseStoragePrices`).  When key 18 is absent, `config.get(18)!` is
`undefined` and the SDK's `Dictionary.loadDirect(…, undefined)` returns
the EMPTY dictionary (its argument check is `sc == null`); then
`values[values.length - 1]` is `values[-1]`, i.e. `undefined` - embedded
as `.ok none`.  No error is raised on that path. -/
def getStoragePrices (config : Config) : Except Err (Option StorageValue) := do
  let entries ← match dictGet config 18 with
    | none => pure []
    | some c => loadStorageDict c
  pure ((entries.map Prod.snd).getLast?)

/-- Model of `setStoragePrices(configRaw, prices)` (spec name
`serializeStoragePrices`).  The source sets at key
`storageData.values().length - 1` - the position count, not the highest
key.  On an empty dictionary that key is the JS number `-1`, which the
`Uint(32)` key serializer rejects when the dictionary is stored back. -/
def setStoragePrices (config : Config) (prices : StorageValue) : Except Err Config := do
  let entries ← match dictGet config 18 with
    | none => pure []
    | some c => loadStorageDict c
  if entries.isEmpty then
    .error (.formatError "Invalid uint value -1")
  else do
    let inner ← storeStorageDict (storageDictSet entries (entries.length - 1) prices)
    pure (dictSet config 18 inner)

theorem pure_ok_inv {e a : Type} {x v : a} (h : (pure x : Except e a) = .ok v) : x = v := by
  injection h

theorem storageValueSerialize_ok_inv {v : StorageValue} {bs : List Bool}
    (h : storageValueSerialize v = .ok bs) :
    bs = natToBits 8 0xcc ++ natToBits 32 v.utime_sice ++
        natToBits 64 v.bit_price_ps.toNat ++ natToBits 64 v.cell_price_ps.toNat ++
        natToBits 64 v.mc_bit_price_ps.toNat ++ natToBits 64 v.mc_cell_price_ps.toNat ∧
      v.utime_sice < 2 ^ 32 ∧
      0 ≤ v.bit_price_ps ∧ v.bit_price_ps < 2 ^ 64 ∧
      0 ≤ v.cell_price_ps ∧ v.cell_price_ps < 2 ^ 64 ∧
      0 ≤ v.mc_bit_price_ps ∧ v.mc_bit_price_ps < 2 ^ 64 ∧
      0 ≤ v.mc_cell_price_ps ∧ v.mc_cell_price_ps < 2 ^ 64 := by
  unfold storageValueSerialize at h
  obtain ⟨b0, hb0, h⟩ := bind_ok_inv h
  obtain ⟨b1, hb1, h⟩ := bind_ok_inv h
  obtain ⟨b2, hb2, h⟩ := bind_ok_inv h
  obtain ⟨b3, hb3, h⟩ := bind_ok_inv h
  obtain ⟨b4, hb4, h⟩ := bind_ok_inv h
  obtain ⟨b5, hb5, h⟩ := bind_ok_inv h
  have e0 := storeUintE_ok_inv hb0
  have e1 := storeUintE_ok_inv hb1
  have e2 := storeUintE_ok_inv hb2
  have e3 := storeUintE_ok_inv hb3
  have e4 := storeUintE_ok_inv hb4
  have e5 := storeUintE_ok_inv hb5
  have hbs := pure_ok_inv h
  have hcast : ((2:Int) ^ 32) = ((2 ^ 32 : Nat) : Int) := by push_cast
  refine ⟨?_, ?_, e2.1, e2.2.1, e3.1, e3.2.1, e4.1, e4.2.1, e5.1, e5.2.1⟩
  · rw [← hbs, e0.2.2, e1.2.2, e2.2.2, e3.2.2, e4.2.2, e5.2.2]
    simp [Int.toNat_ofNat, Int.toNat_natCast]
  · have := e1.2.1
    rw [hcast] at this
    exact_mod_cast this

theorem storageValueSerialize_eq (v : StorageValue)
    (hu : v.utime_sice < 2 ^ 32)
    (hp1 : 0 ≤ v.bit_price_ps) (hp2 : v.bit_price_ps < 2 ^ 64)
    (hp3 : 0 ≤ v.cell_price_ps) (hp4 : v.cell_price_ps < 2 ^ 64)
    (hp5 : 0 ≤ v.mc_bit_price_ps) (hp6 : v.mc_bit_price_ps < 2 ^ 64)
    (hp7 : 0 ≤ v.mc_cell_price_ps) (hp8 : v.mc_cell_price_ps < 2 ^ 64) :
    storageValueSerialize v = .ok (natToBits 8 0xcc ++ natToBits 32 v.utime_sice ++
      natToBits 64 v.bit_price_ps.toNat ++ natToBits 64 v.cell_price_ps.toNat ++
      natToBits 64 v.mc_bit_price_ps.toNat ++ natToBits 64 v.mc_cell_price_ps.toNat) := by
  have etag : storeUintE 0xcc 8 = .ok (natToBits 8 0xcc) := by
    rw [storeUintE_ok (by norm_num) (by norm_num)]
    rfl
  have hu0 : (0:Int) ≤ (v.utime_sice : Int) := by positivity
  have hu1 : (v.utime_sice : Int) < 2 ^ 32 := by exact_mod_cast hu
  have eu : storeUintE (v.utime_sice : Int) 32 = .ok (natToBits 32 v.utime_sice) := by
    rw [storeUintE_ok hu0 hu1]
    norm_num
  simp only [storageValueSerialize, etag, eu, okBind, purePure,
    storeUintE_ok hp1 hp2, storeUintE_ok hp3 hp4, storeUintE_ok hp5 hp6,
    storeUintE_ok hp7 hp8]

theorem skipE_append_of (w : Nat) (xs rest : List Bool) (hlen : xs.length = w) :
    skipE ⟨xs ++ rest⟩ w = .ok ⟨rest⟩ := by
  subst hlen
  simp [skipE, List.drop_left, Nat.le_add_right]

theorem storageValueParse_of_serialized {v : StorageValue} {bs : List Bool}
    (h : storageValueSerialize v = .ok bs) :
    storageValueParse ⟨bs⟩ = .ok (v, ⟨[]⟩) := by
  obtain ⟨hshape, hu, hp1, hp2, hp3, hp4, hp5, hp6, hp7, hp8⟩ := storageValueSerialize_ok_inv h
  subst hshape
  have t0 := skipE_append_of 8 (natToBits 8 0xcc)
    (natToBits 32 v.utime_sice ++ natToBits 64 v.bit_price_ps.toNat ++
      natToBits 64 v.cell_price_ps.toNat ++ natToBits 64 v.mc_bit_price_ps.toNat ++
      natToBits 64 v.mc_cell_price_ps.toNat) (natToBits_length _ _)
  have t1 := loadUintE_append_of 32
    (natToBits 64 v.bit_price_ps.toNat ++ natToBits 64 v.cell_price_ps.toNat ++
      natToBits 64 v.mc_bit_price_ps.toNat ++ natToBits 64 v.mc_cell_price_ps.toNat)
    (natToBits 32 v.utime_sice) (natToBits_length _ _) (bitsToNat_natToBits_of_lt hu)
  have t2 := loadUintBigE_append (w := 64) (v := v.bit_price_ps)
    (natToBits 64 v.cell_price_ps.toNat ++ natToBits 64 v.mc_bit_price_ps.toNat ++
      natToBits 64 v.mc_cell_price_ps.toNat) hp1 hp2
  have t3 := loadUintBigE_append (w := 64) (v := v.cell_price_ps)
    (natToBits 64 v.mc_bit_price_ps.toNat ++ natToBits 64 v.mc_cell_price_ps.toNat) hp3 hp4
  have t4 := loadUintBigE_append (w := 64) (v := v.mc_bit_price_ps)
    (natToBits 64 v.mc_cell_price_ps.toNat) hp5 hp6
  have t5 := loadUintBigE_exact (w := 64) (v := v.mc_cell_price_ps) hp7 hp8
  simp only [List.append_assoc] at t0 t1 t2 t3 t4
  simp [storageValueParse, List.append_assoc, t0, t1, t2, t3, t4, t5, okBind, purePure]

theorem storageValueSerialize_length {v : StorageValue} {bs : List Bool}
    (h : storageValueSerialize v = .ok bs) : bs.length = 296 := by
  rw [(storageValueSerialize_ok_inv h).1]
  simp [List.length_append, natToBits_length]

theorem storeStorageDictBits_length {entries : StorageDict} {bs : List Bool}
    (h : storeStorageDictBits entries = .ok bs) :
    bs.length = 328 * entries.length := by
  induction entries generalizing bs with
  | nil =>
    simp only [storeStorageDictBits] at h
    injection h with h
    simp [← h]
  | cons e rest ih =>
    obtain ⟨k, v⟩ := e
    simp only [storeStorageDictBits] at h
    obtain ⟨kb, hkb, h⟩ := bind_ok_inv h
    obtain ⟨vb, hvb, h⟩ := bind_ok_inv h
    obtain ⟨rb, hrb, h⟩ := bind_ok_inv h
    have hbs := pure_ok_inv h
    have hkb_len : kb.length = 32 := by
      rw [(storeUintE_ok_inv hkb).2.2]; exact natToBits_length _ _
    have hvb_len : vb.length = 296 := storageValueSerialize_length hvb
    have hrb_len := ih hrb
    rw [← hbs]
    simp only [List.length_append, List.length_cons, hkb_len, hvb_len, hrb_len]
    ring

theorem loadStorageDictGo_store {entries : StorageDict} {bs : List Bool}
    (h : storeStorageDictBits entries = .ok bs) :
    ∀ fuel, entries.length ≤ fuel → loadStorageDictGo fuel bs = .ok entries := by
  induction entries generalizing bs with
  | nil =>
    have hnil : bs = [] := by
      simp only [storeStorageDictBits] at h
      injection h with h
      exact h.symm
    subst hnil
    intro fuel _
    cases fuel <;> rfl
  | cons e rest ih =>
    obtain ⟨k, v⟩ := e
    simp only [storeStorageDictBits] at h
    obtain ⟨kb, hkb, h⟩ := bind_ok_inv h
    obtain ⟨vb, hvb, h⟩ := bind_ok_inv h
    obtain ⟨rb, hrb, h⟩ := bind_ok_inv h
    have hbs := pure_ok_inv h
    have hkinv := storeUintE_ok_inv hkb
    have hkb_len : kb.length = 32 := by rw [hkinv.2.2]; exact natToBits_length _ _
    have hvb_len : vb.length = 296 := storageValueSerialize_length hvb
    have hlen : bs.length = 328 + rb.length := by
      have hx : bs.length = kb.length + (vb.length + rb.length) := by
        rw [← hbs]
        simp [List.length_append]
      omega
    have hkv_len : (kb ++ vb).length = 328 := by
      have hx : (kb ++ vb).length = kb.length + vb.length := List.length_append _ _
      omega
    intro fuel hfuel
    have hfuel1 : 1 ≤ fuel := by
      simp only [List.length_cons] at hfuel
      omega
    obtain ⟨f, rfl⟩ : ∃ f, fuel = f + 1 := ⟨fuel - 1, by omega⟩
    have hne : bs ≠ [] := by
      intro hx
      rw [hx] at hlen
      simp only [List.length_nil] at hlen
      omega
    obtain ⟨c0, cs, hcons⟩ := List.exists_cons_of_ne_nil hne
    have hdrop32 : bs.drop 32 = vb ++ rb := by
      rw [← hbs, List.append_assoc, ← hkb_len]
      exact List.drop_left _ _
    have htake296 : (vb ++ rb).take 296 = vb := by
      rw [← hvb_len]
      exact List.take_left _ _
    have htake32 : bs.take 32 = kb := by
      rw [← hbs, List.append_assoc, ← hkb_len]
      exact List.take_left _ _
    have hdrop328 : bs.drop 328 = rb := by
      rw [← hbs, ← hkv_len]
      exact List.drop_left _ _
    have hkey : bitsToNat (bs.take 32) = k := by
      rw [htake32, hkinv.2.2]
      have hk32 : ((k : Int)).toNat = k := Int.toNat_natCast k
      rw [hk32]
      have hcast : ((2:Int) ^ 32) = ((2 ^ 32 : Nat) : Int) := by push_cast
      have hklt : k < 2 ^ 32 := by
        have := hkinv.2.1
        rw [hcast] at this
        exact_mod_cast this
      exact bitsToNat_natToBits_of_lt hklt
    have hparse : storageValueParse ⟨(bs.drop 32).take 296⟩ = .ok (v, ⟨[]⟩) := by
      rw [hdrop32, htake296]
      exact storageValueParse_of_serialized hvb
    have hrec : loadStorageDictGo f (bs.drop 328) = .ok rest := by
      rw [hdrop328]
      exact ih hrb f (by simp only [List.length_cons] at hfuel; omega)
    rw [hcons]
    simp only [loadStorageDictGo, ← hcons]
    rw [if_pos (by omega)]
    rw [hparse, hrec, hkey]
    rfl

/-- Bounds that make a storage entry serializable; every entry produced by
the parser satisfies them. -/
def entryBounded (e : Nat × StorageValue) : Prop :=
  e.1 < 2 ^ 32 ∧ e.2.utime_sice < 2 ^ 32 ∧
    0 ≤ e.2.bit_price_ps ∧ e.2.bit_price_ps < 2 ^ 64 ∧
    0 ≤ e.2.cell_price_ps ∧ e.2.cell_price_ps < 2 ^ 64 ∧
    0 ≤ e.2.mc_bit_price_ps ∧ e.2.mc_bit_price_ps < 2 ^ 64 ∧
    0 ≤ e.2.mc_cell_price_ps ∧ e.2.mc_cell_price_ps < 2 ^ 64

theorem map_ok_inv {e a b : Type} {f : a → b} {x : Except e a} {v : b}
    (h : Except.map f x = .ok v) : ∃ u, x = .ok u ∧ f u = v := by
  cases x with
  | ok u =>
    refine ⟨u, rfl, ?_⟩
    have hh : Except.map f (Except.ok u : Except e a) = Except.ok (f u) := rfl
    rw [hh] at h
    injection h with h
  | error err =>
    have hh : Except.map f (Except.error err : Except e a) = Except.error err := rfl
    rw [hh] at h
    exact Except.noConfusion h

theorem storageValueParse_ok_bounds {s : Slice} {v : StorageValue} {s2 : Slice}
    (h : storageValueParse s = .ok (v, s2)) :
    v.utime_sice < 2 ^ 32 ∧
      0 ≤ v.bit_price_ps ∧ v.bit_price_ps < 2 ^ 64 ∧
      0 ≤ v.cell_price_ps ∧ v.cell_price_ps < 2 ^ 64 ∧
      0 ≤ v.mc_bit_price_ps ∧ v.mc_bit_price_ps < 2 ^ 64 ∧
      0 ≤ v.mc_cell_price_ps ∧ v.mc_cell_price_ps < 2 ^ 64 := by
  unfold storageValueParse at h
  obtain ⟨s0, hs0, h⟩ := bind_ok_inv h
  obtain ⟨⟨u, s1⟩, hu, h⟩ := bind_ok_inv h
  obtain ⟨⟨p1, sp1⟩, hp1, h⟩ := bind_ok_inv h
  obtain ⟨⟨p2, sp2⟩, hp2, h⟩ := bind_ok_inv h
  obtain ⟨⟨p3, sp3⟩, hp3, h⟩ := bind_ok_inv h
  obtain ⟨⟨p4, sp4⟩, hp4, h⟩ := bind_ok_inv h
  have hv := pure_ok_inv h
  have hveq : v = ⟨u, p1, p2, p3, p4⟩ := by
    have hfst := congrArg Prod.fst hv
    simpa using hfst.symm
  have i0 := loadUintE_ok_inv hu
  have i1 := loadUintBigE_ok_inv hp1
  have i2 := loadUintBigE_ok_inv hp2
  have i3 := loadUintBigE_ok_inv hp3
  have i4 := loadUintBigE_ok_inv hp4
  subst hveq
  exact ⟨i0.1, i1.1, i1.2.1, i2.1, i2.2.1, i3.1, i3.2.1, i4.1, i4.2.1⟩

theorem loadStorageDictGo_ok_bounds :
    ∀ (fuel : Nat) (bs : List Bool) (entries : StorageDict),
      loadStorageDictGo fuel bs = .ok entries →
      ∀ e ∈ entries, entryBounded e := by
  intro fuel
  induction fuel with
  | zero =>
    intro bs entries h
    cases bs with
    | nil =>
      have : entries = [] := by
        have hh : loadStorageDictGo 0 [] = .ok [] := rfl
        rw [hh] at h
        injection h with h
        exact h.symm
      subst this
      intro e he
      exact absurd he (List.not_mem_nil e)
    | cons b bs =>
      exact Except.noConfusion h
  | succ f ih =>
    intro bs entries h
    cases bs with
    | nil =>
      have : entries = [] := by
        have hh : loadStorageDictGo (f + 1) [] = .ok [] := rfl
        rw [hh] at h
        injection h with h
        exact h.symm
      subst this
      intro e he
      exact absurd he (List.not_mem_nil e)
    | cons b bs =>
      simp only [loadStorageDictGo] at h
      split at h
      · cases hps : storageValueParse ⟨((b :: bs).drop 32).take 296⟩ with
        | error e =>
          rw [hps] at h
          exact Except.noConfusion h
        | ok pv =>
          obtain ⟨v, s2⟩ := pv
          rw [hps] at h
          obtain ⟨rest, hrest, hcons⟩ := map_ok_inv h
          have hbounds := storageValueParse_ok_bounds hps
          have hkey : bitsToNat ((b :: bs).take 32) < 2 ^ 32 := by
            calc bitsToNat ((b :: bs).take 32) < 2 ^ ((b :: bs).take 32).length :=
              bitsToNat_lt _
            _ ≤ 2 ^ 32 := Nat.pow_le_pow_right (by omega) (by
                simp [List.length_take])
          intro e he
          rw [← hcons] at he
          rcases List.mem_cons.mp he with he | he
          · subst he
            exact ⟨hkey, hbounds⟩
          · exact ih _ rest hrest e he
      · exact Except.noConfusion h

theorem storeStorageDictBits_ok (entries : StorageDict)
    (hb : ∀ e ∈ entries, entryBounded e) :
    ∃ bs, storeStorageDictBits entries = .ok bs := by
  induction entries with
  | nil => exact ⟨[], rfl⟩
  | cons e rest ih =>
    obtain ⟨k, v⟩ := e
    obtain ⟨hk, hu, hp1, hp2, hp3, hp4, hp5, hp6, hp7, hp8⟩ := hb (k, v) (List.mem_cons_self _ _)
    obtain ⟨rb, hrb⟩ := ih fun x hx => hb x (List.mem_cons_of_mem _ hx)
    have hk0 : (0:Int) ≤ (k : Int) := by positivity
    have hk1 : ((k : Int)) < 2 ^ 32 := by exact_mod_cast hk
    refine ⟨natToBits 32 ((k : Int)).toNat ++
      (natToBits 8 0xcc ++ natToBits 32 v.utime_sice ++
        natToBits 64 v.bit_price_ps.toNat ++ natToBits 64 v.cell_price_ps.toNat ++
        natToBits 64 v.mc_bit_price_ps.toNat ++ natToBits 64 v.mc_cell_price_ps.toNat) ++ rb, ?_⟩
    simp only [storeStorageDictBits, storeUintE_ok hk0 hk1,
      storageValueSerialize_eq v hu hp1 hp2 hp3 hp4 hp5 hp6 hp7 hp8, hrb,
      okBind, purePure]

theorem storageDictSet_last (p : StorageValue) :
    ∀ (entries : StorageDict) (s n : Nat),
      entries.map Prod.fst = List.range' s n → 1 ≤ n →
      storageDictSet entries (s + n - 1) p = entries.dropLast ++ [(s + n - 1, p)] := by
  intro entries
  induction entries with
  | nil =>
    intro s n hk hn
    obtain ⟨n', rfl⟩ : ∃ n', n = n' + 1 := ⟨n - 1, by omega⟩
    rw [List.range'_succ] at hk
    exact List.noConfusion hk
  | cons e rest ih =>
    intro s n hk hn
    obtain ⟨k', v'⟩ := e
    obtain ⟨n', rfl⟩ : ∃ n', n = n' + 1 := ⟨n - 1, by omega⟩
    rw [List.range'_succ] at hk
    simp only [List.map_cons, List.cons.injEq] at hk
    obtain ⟨hk1, hk2⟩ := hk
    cases rest with
    | nil =>
      have hn0 : n' = 0 := by
        have hx := congrArg List.length hk2
        simpa using hx.symm
      subst hn0
      subst hk1
      simp [storageDictSet]
    | cons r rs =>
      have hn1 : 1 ≤ n' := by
        have hx := congrArg List.length hk2
        simp at hx
        omega
      have hkey : s + (n' + 1) - 1 = s + 1 + n' - 1 := by omega
      rw [hkey]
      have hne : s + 1 + n' - 1 ≠ k' := by
        subst hk1
        omega
      have hnlt : ¬ (s + 1 + n' - 1 < k') := by
        subst hk1
        omega
      have hrec := ih (s + 1) n' hk2 hn1
      simp only [storageDictSet] at hrec ⊢
      rw [if_neg hne, if_neg hnlt, hrec]
      simp [List.dropLast_cons₂]

/-- C3 (amended): over a well-formed non-empty inner storage-price
dictionary whose keys are exactly the consecutive integers 0..n-1 (so the
position count minus one, the key the code actually writes to, IS the
highest key), `setStoragePrices` replaces the highest-key entry and
`getStoragePrices` reads the stored prices back. -/
theorem parseStoragePrices_serializeStoragePrices_amended (config : Config)
    (p : StorageValue) (c : Cell) (entries : StorageDict)
    (hc : dictGet config 18 = some c)
    (hload : loadStorageDict c = .ok entries)
    (hkeys : entries.map Prod.fst = List.range entries.length)
    (hne : entries ≠ [])
    (hu : p.utime_sice < 2 ^ 32)
    (hp1 : 0 ≤ p.bit_price_ps) (hp2 : p.bit_price_ps < 2 ^ 64)
    (hp3 : 0 ≤ p.cell_price_ps) (hp4 : p.cell_price_ps < 2 ^ 64)
    (hp5 : 0 ≤ p.mc_bit_price_ps) (hp6 : p.mc_bit_price_ps < 2 ^ 64)
    (hp7 : 0 ≤ p.mc_cell_price_ps) (hp8 : p.mc_cell_price_ps < 2 ^ 64) :
    ∃ config2, setStoragePrices config p = .ok config2 ∧
      getStoragePrices config2 = .ok (some p) := by
  have hn : 1 ≤ entries.length := by
    cases entries with
    | nil => exact absurd rfl hne
    | cons e rest => simp
  have hrange : entries.map Prod.fst = List.range' 0 entries.length := by
    rw [hkeys, List.range_eq_range']
  have hset := storageDictSet_last p entries 0 entries.length hrange hn
  simp only [Nat.zero_add] at hset
  have hloadGo : loadStorageDictGo c.bits.length c.bits = .ok entries := by
    by_cases hce : c.bits.isEmpty
    · exfalso
      unfold loadStorageDict at hload
      rw [if_pos hce] at hload
      exact Except.noConfusion hload
    · unfold loadStorageDict at hload
      rw [if_neg hce] at hload
      exact hload
  have hold := loadStorageDictGo_ok_bounds _ _ _ hloadGo
  have hkeymem : ∃ e ∈ entries, e.1 = entries.length - 1 := by
    have hmem : entries.length - 1 ∈ entries.map Prod.fst := by
      rw [hkeys]
      exact List.mem_range.mpr (by omega)
    obtain ⟨e, he, heq⟩ := List.mem_map.mp hmem
    exact ⟨e, he, heq⟩
  have hb2 : ∀ e ∈ entries.dropLast ++ [(entries.length - 1, p)], entryBounded e := by
    intro e he
    rcases List.mem_append.mp he with he | he
    · have hsub : e ∈ entries := by
        have hx : entries.dropLast ⊆ entries := by
          rw [List.dropLast_eq_take]
          exact List.take_subset _ _
        exact hx he
      exact hold e hsub
    · have hee : e = (entries.length - 1, p) := by simpa using he
      subst hee
      obtain ⟨e0, he0, heq0⟩ := hkeymem
      exact ⟨heq0 ▸ (hold e0 he0).1, hu, hp1, hp2, hp3, hp4, hp5, hp6, hp7, hp8⟩
  obtain ⟨bs2, hbs2⟩ := storeStorageDictBits_ok _ hb2
  have hemp : entries.isEmpty = false := by
    cases entries with
    | nil => exact absurd rfl hne
    | cons e rest => rfl
  have hset_eq : setStoragePrices config p =
      .ok (dictSet config 18 (Cell.mk bs2 [])) := by
    simp only [setStoragePrices, hc, hload, okBind, hemp, Bool.false_eq_true,
      if_false, hset, storeStorageDict, hbs2, Except.map, purePure]
  have hlen2 := storeStorageDictBits_length hbs2
  have hload2 : loadStorageDict (Cell.mk bs2 []) = .ok
      (entries.dropLast ++ [(entries.length - 1, p)]) := by
    have hbs2ne : bs2.isEmpty = false := by
      cases hb : bs2 with
      | nil =>
        exfalso
        rw [hb] at hlen2
        simp only [List.length_nil, List.length_append, List.length_cons] at hlen2
        omega
      | cons a l => rfl
    unfold loadStorageDict
    rw [show (Cell.mk bs2 []).bits = bs2 from rfl]
    rw [if_neg (by rw [hbs2ne]; simp)]
    refine loadStorageDictGo_store hbs2 _ ?_
    rw [hlen2]
    simp only [List.length_append, List.length_cons]
    omega
  have hget : getStoragePrices (dictSet config 18 (Cell.mk bs2 [])) = .ok (some p) := by
    simp only [getStoragePrices, dictGet_dictSet_self, hload2, okBind, purePure]
    rw [List.map_append]
    simp only [List.map_cons, List.map_nil]
    rw [List.getLast?_concat]
  exact ⟨_, hset_eq, hget⟩

/-- Concrete serialized inner storage dictionary with single key 5 (a
well-formed non-empty dictionary whose key set is not contiguous). -/
def storageDictCellKey5 : Cell :=
  Cell.mk (natToBits 32 5 ++ natToBits 8 0xcc ++ natToBits 32 0 ++ natToBits 64 0 ++
    natToBits 64 0 ++ natToBits 64 0 ++ natToBits 64 0) []

/-- Concrete serialized inner storage dictionary with single key 0. -/
def storageDictCellKey0 : Cell :=
  Cell.mk (natToBits 32 0 ++ natToBits 8 0xcc ++ natToBits 32 0 ++ natToBits 64 0 ++
    natToBits 64 0 ++ natToBits 64 0 ++ natToBits 64 0) []

set_option maxRecDepth 40000 in
theorem storage_roundtrip_counterexample :
    (setStoragePrices [((18:Int), storageDictCellKey5)] ⟨1, 1, 1, 1, 1⟩).bind
        getStoragePrices = .ok (some ⟨0, 0, 0, 0, 0⟩) ∧
      (⟨0, 0, 0, 0, 0⟩ : StorageValue) ≠ ⟨1, 1, 1, 1, 1⟩ := by
  constructor
  · rfl
  · decide

set_option maxRecDepth 40000 in
theorem parseStoragePrices_serializeStoragePrices_amended_witness :
    dictGet [((18:Int), storageDictCellKey0)] 18 = some storageDictCellKey0 ∧
    loadStorageDict storageDictCellKey0 = .ok [(0, ⟨0, 0, 0, 0, 0⟩)] ∧
    ([(0, (⟨0, 0, 0, 0, 0⟩ : StorageValue))].map Prod.fst =
      List.range [(0, (⟨0, 0, 0, 0, 0⟩ : StorageValue))].length) ∧
    [(0, (⟨0, 0, 0, 0, 0⟩ : StorageValue))] ≠ [] ∧
    (∃ config2,
      setStoragePrices [((18:Int), storageDictCellKey0)] ⟨1, 1, 1, 1, 1⟩ = .ok config2 ∧
      getStoragePrices config2 = .ok (some ⟨1, 1, 1, 1, 1⟩)) := by
  refine ⟨rfl, rfl, by decide, by decide, ?_⟩
  exact parseStoragePrices_serializeStoragePrices_amended _ ⟨1, 1, 1, 1, 1⟩
    storageDictCellKey0 [(0, ⟨0, 0, 0, 0, 0⟩)] rfl rfl (by decide) (by decide)
    (by norm_num) (by norm_num) (by norm_num) (by norm_num) (by norm_num)
    (by norm_num) (by norm_num) (by norm_num) (by norm_num)

theorem loadUintBigE_ok_of_length {s : Slice} {n : Nat} (h : n ≤ s.bits.length) :
    loadUintBigE s n = .ok ((bitsToNat (s.bits.take n) : Int), ⟨s.bits.drop n⟩) := by
  simp [loadUintBigE, loadUintE_ok_of_length h, Except.map]

set_option maxRecDepth 40000 in
theorem storage_tag_not_checked_counterexample :
    storageValueParse ⟨List.replicate 296 false⟩ = .ok (⟨0, 0, 0, 0, 0⟩, ⟨[]⟩) ∧
      bitsToNat ((List.replicate 296 false).take 8) ≠ 0xcc := by
  constructor
  · rfl
  · decide

/-- C4 (amended): the gas parser fails with the corresponding format
error whenever either of its tag bytes differs from `0xd1`/`0xde` and
succeeds only when both match; the message parser likewise for `0xea`;
but the storage-value parser merely skips its 8-bit tag position and
succeeds on any tag byte whenever enough bits remain. -/
theorem parse_tag_checks (config : Config) (w : Int) (s : Slice) :
    (∀ c, dictGet config (21 + w) = some c → 8 ≤ c.bits.length →
      bitsToNat (c.bits.take 8) ≠ 0xd1 →
      getGasPrices config w = .error (.formatError "Invalid flat gas prices tag!")) ∧
    (∀ c, dictGet config (21 + w) = some c → 144 ≤ c.bits.length →
      bitsToNat (c.bits.take 8) = 0xd1 →
      bitsToNat ((c.bits.drop 136).take 8) ≠ 0xde →
      getGasPrices config w = .error (.formatError "Invalid gas prices tag!")) ∧
    (8 ≤ s.bits.length → bitsToNat (s.bits.take 8) ≠ 0xea →
      configParseMsgPrices s = .error (.formatError "Invalid message prices magic number!")) ∧
    (∀ r, configParseMsgPrices s = .ok r → bitsToNat (s.bits.take 8) = 0xea) ∧
    (∀ pg, getGasPrices config w = .ok pg → ∃ c, dictGet config (21 + w) = some c ∧
      bitsToNat (c.bits.take 8) = 0xd1 ∧ bitsToNat ((c.bits.drop 136).take 8) = 0xde) ∧
    (296 ≤ s.bits.length → ∃ v s2, storageValueParse s = .ok (v, s2)) := by
  refine ⟨?_, ?_, ?_, ?_, ?_, ?_⟩
  · intro c hc h8 htag
    have t1 : loadUintE c.beginParse 8 =
        .ok (bitsToNat (c.bits.take 8), ⟨c.bits.drop 8⟩) :=
      loadUintE_ok_of_length h8
    simp only [getGasPrices, hc, t1, okBind]
    rw [if_pos htag]
  · intro c hc h144 htag1 htag2
    have h8 : 8 ≤ c.bits.length := by omega
    have hd : ((c.bits.drop 8).drop 64).drop 64 = c.bits.drop 136 := by
      simp [List.drop_drop]
    have t1 : loadUintE c.beginParse 8 =
        .ok (bitsToNat (c.bits.take 8), ⟨c.bits.drop 8⟩) :=
      loadUintE_ok_of_length h8
    have t2 : loadUintBigE ⟨c.bits.drop 8⟩ 64 =
        .ok ((bitsToNat ((c.bits.drop 8).take 64) : Int), ⟨(c.bits.drop 8).drop 64⟩) :=
      loadUintBigE_ok_of_length (by simp [List.length_drop]; omega)
    have t3 : loadUintBigE ⟨(c.bits.drop 8).drop 64⟩ 64 =
        .ok ((bitsToNat (((c.bits.drop 8).drop 64).take 64) : Int),
          ⟨((c.bits.drop 8).drop 64).drop 64⟩) :=
      loadUintBigE_ok_of_length (by simp [List.length_drop]; omega)
    have htag2x : bitsToNat ((((c.bits.drop 8).drop 64).drop 64).take 8) ≠ 0xde := by
      rw [hd]
      exact htag2
    have t4 : loadUintE ⟨((c.bits.drop 8).drop 64).drop 64⟩ 8 =
        .ok (bitsToNat ((((c.bits.drop 8).drop 64).drop 64).take 8),
          ⟨(((c.bits.drop 8).drop 64).drop 64).drop 8⟩) :=
      loadUintE_ok_of_length (by rw [show ((c.bits.drop 8).drop 64).drop 64 =
        (⟨((c.bits.drop 8).drop 64).drop 64⟩ : Slice).bits from rfl] at hd ⊢
                                 rw [hd]
                                 simp [List.length_drop]
                                 omega)
    simp only [getGasPrices, hc, t1, okBind]
    rw [if_neg (by simp [htag1])]
    simp only [t2, t3, t4, okBind]
    rw [if_pos htag2x]
  · intro h8 htag
    have t1 : loadUintE s 8 =
        .ok (bitsToNat (s.bits.take 8), ⟨s.bits.drop 8⟩) :=
      loadUintE_ok_of_length h8
    simp only [configParseMsgPrices, t1, okBind]
    rw [if_pos htag]
  · intro r h
    unfold configParseMsgPrices at h
    obtain ⟨⟨magic, s1⟩, hm, h⟩ := bind_ok_inv h
    dsimp only at h
    have hi := loadUintE_ok_inv hm
    by_cases htag : magic ≠ 0xea
    · rw [if_pos htag] at h
      exact Except.noConfusion h
    · push_neg at htag
      rw [← hi.2.1, htag]
  · intro pg h
    unfold getGasPrices at h
    cases hc : dictGet config (21 + w) with
    | none =>
      rw [hc] at h
      exact Except.noConfusion h
    | some c =>
      rw [hc] at h
      obtain ⟨⟨tag1, s1⟩, ht1, h⟩ := bind_ok_inv h
      dsimp only at h
      have hi1 := loadUintE_ok_inv ht1
      by_cases htag1 : tag1 ≠ 0xd1
      · rw [if_pos htag1] at h
        exact Except.noConfusion h
      · push_neg at htag1
        rw [if_neg (by simp [htag1])] at h
        obtain ⟨⟨f1, s2⟩, hf1, h⟩ := bind_ok_inv h
        dsimp only at h
        obtain ⟨⟨f2, s3⟩, hf2, h⟩ := bind_ok_inv h
        dsimp only at h
        obtain ⟨⟨tag2, s4⟩, ht2, h⟩ := bind_ok_inv h
        dsimp only at h
        have hj1 := loadUintBigE_ok_inv hf1
        have hj2 := loadUintBigE_ok_inv hf2
        have hi2 := loadUintE_ok_inv ht2
        by_cases htag2 : tag2 ≠ 0xde
        · rw [if_pos htag2] at h
          exact Except.noConfusion h
        · push_neg at htag2
          refine ⟨c, rfl, ?_, ?_⟩
          · have hx := hi1.2.1
            rw [show c.beginParse.bits = c.bits from rfl] at hx
            rw [← hx, htag1]
          · have hs1 : s1.bits = c.bits.drop 8 := by
              rw [hi1.2.2]
              rw [show (⟨c.beginParse.bits.drop 8⟩ : Slice).bits = c.bits.drop 8 from rfl]
            have hs2 : s2.bits = c.bits.drop 72 := by
              rw [hj1.2.2.2, hs1]
              simp [List.drop_drop]
            have hs3 : s3.bits = c.bits.drop 136 := by
              rw [hj2.2.2.2, hs2]
              simp [List.drop_drop]
            rw [← hs3, ← hi2.2.1, htag2]
  · intro h296
    have t0 : skipE s 8 = .ok ⟨s.bits.drop 8⟩ := by
      unfold skipE
      rw [if_pos (by omega)]
    have t1 : loadUintE ⟨s.bits.drop 8⟩ 32 =
        .ok (bitsToNat ((s.bits.drop 8).take 32), ⟨(s.bits.drop 8).drop 32⟩) :=
      loadUintE_ok_of_length (by simp [List.length_drop]; omega)
    have t2 : loadUintBigE ⟨(s.bits.drop 8).drop 32⟩ 64 =
        .ok ((bitsToNat (((s.bits.drop 8).drop 32).take 64) : Int),
          ⟨((s.bits.drop 8).drop 32).drop 64⟩) :=
      loadUintBigE_ok_of_length (by simp [List.length_drop]; omega)
    have t3 : loadUintBigE ⟨((s.bits.drop 8).drop 32).drop 64⟩ 64 =
        .ok ((bitsToNat ((((s.bits.drop 8).drop 32).drop 64).take 64) : Int),
          ⟨(((s.bits.drop 8).drop 32).drop 64).drop 64⟩) :=
      loadUintBigE_ok_of_length (by simp [List.length_drop]; omega)
    have t4 : loadUintBigE ⟨(((s.bits.drop 8).drop 32).drop 64).drop 64⟩ 64 =
        .ok ((bitsToNat (((((s.bits.drop 8).drop 32).drop 64).drop 64).take 64) : Int),
          ⟨((((s.bits.drop 8).drop 32).drop 64).drop 64).drop 64⟩) :=
      loadUintBigE_ok_of_length (by simp [List.length_drop]; omega)
    have t5 : loadUintBigE ⟨((((s.bits.drop 8).drop 32).drop 64).drop 64).drop 64⟩ 64 =
        .ok ((bitsToNat ((((((s.bits.drop 8).drop 32).drop 64).drop 64).drop 64).take 64) : Int),
          ⟨(((((s.bits.drop 8).drop 32).drop 64).drop 64).drop 64).drop 64⟩) :=
      loadUintBigE_ok_of_length (by simp [List.length_drop]; omega)
    refine ⟨⟨bitsToNat ((s.bits.drop 8).take 32),
      (bitsToNat (((s.bits.drop 8).drop 32).take 64) : Int),
      (bitsToNat ((((s.bits.drop 8).drop 32).drop 64).take 64) : Int),
      (bitsToNat (((((s.bits.drop 8).drop 32).drop 64).drop 64).take 64) : Int),
      (bitsToNat ((((((s.bits.drop 8).drop 32).drop 64).drop 64).drop 64).take 64) : Int)⟩,
      ⟨(((((s.bits.drop 8).drop 32).drop 64).drop 64).drop 64).drop 64⟩, ?_⟩
    simp only [storageValueParse, t0, t1, t2, t3, t4, t5, okBind, purePure]

set_option maxRecDepth 40000 in
theorem parse_tag_checks_witness :
    getGasPrices [((21:Int), Cell.mk (natToBits 8 0 ++ List.replicate 200 false) [])] 0 =
      .error (.formatError "Invalid flat gas prices tag!") ∧
    configParseMsgPrices ⟨natToBits 8 0 ++ List.replicate 288 false⟩ =
      .error (.formatError "Invalid message prices magic number!") ∧
    (∃ v s2, storageValueParse ⟨natToBits 8 0 ++ List.replicate 288 false⟩ = .ok (v, s2)) := by
  have h := parse_tag_checks [((21:Int), Cell.mk (natToBits 8 0 ++ List.replicate 200 false) [])]
    0 ⟨natToBits 8 0 ++ List.replicate 288 false⟩
  have hlen1 : (8:Nat) ≤ (Cell.mk (natToBits 8 0 ++ List.replicate 200 false) []).bits.length := by
    rw [show (Cell.mk (natToBits 8 0 ++ List.replicate 200 false) []).bits =
      natToBits 8 0 ++ List.replicate 200 false from rfl]
    rw [List.length_append, natToBits_length, List.length_replicate]
    omega
  have hlen2 : (8:Nat) ≤ (natToBits 8 0 ++ List.replicate 288 false).length := by
    rw [List.length_append, natToBits_length, List.length_replicate]
    omega
  have hlen3 : (296:Nat) ≤ (natToBits 8 0 ++ List.replicate 288 false).length := by
    rw [List.length_append, natToBits_length, List.length_replicate]
  refine ⟨h.1 _ rfl hlen1 (by decide), h.2.2.1 hlen2 (by decide), h.2.2.2.2.2 hlen3⟩

theorem parse_lookup_errors_counterexample :
    getStoragePrices [] = .ok none ∧ ∀ e : Err, getStoragePrices [] ≠ .error e := by
  refine ⟨rfl, ?_⟩
  intro e h
  rw [show getStoragePrices [] = .ok none from rfl] at h
  exact Except.noConfusion h

/-- C7 (amended): when the required key is absent, the gas lookup raises
the `TypeError` from dereferencing `undefined` and the message-price
lookup raises its explicit missing-key error; the storage-price lookup
silently returns `undefined` (modelled as `.ok none`) when key 18 is
absent, but when key 18 is present and holds a zero-bit cell the
dictionary parser underruns and a format error IS raised, as the
original claim said. -/
theorem parse_lookup_missing_key (config : Config) (w : Int) :
    (dictGet config (21 + w) = none →
      getGasPrices config w = .error (.keyNotFound "Cannot read properties of undefined")) ∧
    (dictGet config (25 + w) = none →
      getMsgPrices config w = .error (.keyNotFound "No prices defined in config")) ∧
    (dictGet config 18 = none → getStoragePrices config = .ok none) ∧
    (∀ c, dictGet config 18 = some c → c.bits = [] →
      getStoragePrices config = .error (.formatError "Index out of bounds")) := by
  refine ⟨?_, ?_, ?_, ?_⟩
  · intro h
    simp [getGasPrices, h]
  · intro h
    simp [getMsgPrices, h]
  · intro h
    simp only [getStoragePrices, h, purePure, okBind]
    rfl
  · intro c h hbits
    have hload : loadStorageDict c = .error (.formatError "Index out of bounds") := by
      unfold loadStorageDict
      rw [if_pos (by rw [hbits]; rfl)]
    simp only [getStoragePrices, h, hload]
    rfl

theorem parse_lookup_missing_key_witness :
    dictGet [] (21 + 0) = none ∧
    getGasPrices [] 0 = .error (.keyNotFound "Cannot read properties of undefined") ∧
    getMsgPrices [] 0 = .error (.keyNotFound "No prices defined in config") ∧
    getStoragePrices [] = .ok none ∧
    dictGet [((18:Int), Cell.mk [] [])] 18 = some (Cell.mk [] []) ∧
    (Cell.mk [] []).bits = [] ∧
    getStoragePrices [((18:Int), Cell.mk [] [])] =
      .error (.formatError "Index out of bounds") := by
  have h := parse_lookup_missing_key [] 0
  have h2 := parse_lookup_missing_key [((18:Int), Cell.mk [] [])] 0
  exact ⟨rfl, h.1 rfl, h.2.1 rfl, h.2.2.1 rfl, rfl, rfl,
    h2.2.2.2 (Cell.mk [] []) rfl rfl⟩

/-- Worklist form of the reference-traversal loop of `collectCellStats`:
processes the cells of the list in order, threading the shared `visited`
list exactly as the source's in-place mutation does.  Each list element
is processed as a `collectCellStats(ref, visited)` call with the default
`skipRoot = false`: a visited cell contributes nothing and is skipped,
otherwise the cell is pushed onto `visited`, its bit length and one cell
are counted, and its references are traversed first (depth-first), then
the rest of the worklist. -/
def collectGo : List Cell → List Cell → StorageStats × List Cell
  | [], vis => (⟨0, 0⟩, vis)
  | c :: rest, vis =>
    if c ∈ vis then collectGo rest vis
    else
      let p := collectGo c.refs (vis ++ [c])
      let q := collectGo rest p.2
      (⟨(c.bitLen : Int) + p.1.bits + q.1.bits, 1 + p.1.cells + q.1.cells⟩, q.2)
  termination_by l _ => sizeOf l
  decreasing_by
  · simp only [List.cons.sizeOf_spec]
    omega
  · have hr := Cell.sizeOf_refs_lt c
    simp only [List.cons.sizeOf_spec]
    omega
  · simp only [List.cons.sizeOf_spec]
    omega

/-- Model of `collectCellStats(cell, visited, skipRoot)`: membership of
the content hash in `visited` is cell equality (content addressing); on a
miss the cell is pushed and its references traversed through
`collectGo`, with the root's own bits/cell suppressed when `skipRoot`. -/
def collectCellStats (cell : Cell) (visited : List Cell) (skipRoot : Bool) :
    StorageStats × List Cell :=
  if cell ∈ visited then (⟨0, 0⟩, visited)
  else
    let p := collectGo cell.refs (visited ++ [cell])
    (⟨(if skipRoot then 0 else (cell.bitLen : Int)) + p.1.bits,
      (if skipRoot then 0 else 1) + p.1.cells⟩, p.2)

/-- Set of all cells reachable from the cells of a list (each cell, its
references, transitively). -/
def reachList : List Cell → Finset Cell
  | [] => ∅
  | c :: rest => insert c (reachList c.refs ∪ reachList rest)
  termination_by l => sizeOf l
  decreasing_by
  · have hr := Cell.sizeOf_refs_lt c
    simp only [List.cons.sizeOf_spec]
    omega
  · simp only [List.cons.sizeOf_spec]
    omega

/-- Set of all cells reachable from one cell. -/
def reachF (c : Cell) : Finset Cell := insert c (reachList c.refs)

theorem reachList_nil : reachList [] = ∅ := by
  simp [reachList]

theorem reachList_cons (c : Cell) (rest : List Cell) :
    reachList (c :: rest) = reachF c ∪ reachList rest := by
  rw [show reachList (c :: rest) = insert c (reachList c.refs ∪ reachList rest) from by
    simp [reachList]]
  rw [reachF, Finset.insert_union]

theorem sizeOf_lt_of_mem {x : Cell} : ∀ {l : List Cell}, x ∈ l → sizeOf x < sizeOf l := by
  intro l h
  induction l with
  | nil => exact absurd h (List.not_mem_nil x)
  | cons a l ih =>
    rcases List.mem_cons.mp h with h | h
    · subst h
      simp only [List.cons.sizeOf_spec]
      omega
    · have := ih h
      simp only [List.cons.sizeOf_spec]
      omega

theorem mem_reachList_sizeOf :
    ∀ (n : Nat) (l : List Cell), sizeOf l ≤ n → ∀ x ∈ reachList l, sizeOf x < sizeOf l := by
  intro n
  induction n with
  | zero =>
    intro l hl
    cases l with
    | nil => simp [reachList_nil]
    | cons c rest =>
      exfalso
      simp only [List.cons.sizeOf_spec] at hl
      omega
  | succ m ih =>
    intro l hl x hx
    cases l with
    | nil => simp [reachList_nil] at hx
    | cons c rest =>
      rw [show reachList (c :: rest) = insert c (reachList c.refs ∪ reachList rest) from by
        simp [reachList]] at hx
      have hsz : sizeOf (c :: rest) = 1 + sizeOf c + sizeOf rest := by
        simp [List.cons.sizeOf_spec]
      rcases Finset.mem_insert.mp hx with hx | hx
      · subst hx
        omega
      · rcases Finset.mem_union.mp hx with hx | hx
        · have h1 : sizeOf c.refs ≤ m := by
            have := Cell.sizeOf_refs_lt c
            omega
          have := ih c.refs h1 x hx
          have := Cell.sizeOf_refs_lt c
          omega
        · have h1 : sizeOf rest ≤ m := by omega
          have := ih rest h1 x hx
          omega

theorem mem_reachF_sizeOf {y c : Cell} (h : y ∈ reachF c) : sizeOf y ≤ sizeOf c := by
  rcases Finset.mem_insert.mp h with h | h
  · subst h
    exact le_refl _
  · have h1 := mem_reachList_sizeOf (sizeOf c.refs) c.refs (le_refl _) y h
    have h2 := Cell.sizeOf_refs_lt c
    omega

theorem self_not_mem_reachList_refs (c : Cell) : c ∉ reachList c.refs := by
  intro h
  have h1 := mem_reachList_sizeOf (sizeOf c.refs) c.refs (le_refl _) c h
  have h2 := Cell.sizeOf_refs_lt c
  omega

theorem reachF_subset_reachList {r : Cell} : ∀ {l : List Cell}, r ∈ l →
    reachF r ⊆ reachList l := by
  intro l h
  induction l with
  | nil => exact absurd h (List.not_mem_nil r)
  | cons a l ih =>
    rw [reachList_cons]
    rcases List.mem_cons.mp h with h | h
    · subst h
      exact Finset.subset_union_left
    · exact (ih h).trans Finset.subset_union_right

theorem mem_reachF_self (c : Cell) : c ∈ reachF c := Finset.mem_insert_self _ _

theorem toFinset_append_singleton (vis : List Cell) (c : Cell) :
    (vis ++ [c]).toFinset = insert c vis.toFinset := by
  simp [List.toFinset_append]
  exact Finset.union_comm _ _

theorem reach_sdiff_decomp {α : Type} [DecidableEq α] (c : α) (B C D V1 : Finset α)
    (hcD : c ∉ D) (hV1 : V1 = D ∪ insert c B) :
    (insert c B ∪ C) \ D = insert c ((B \ insert c D) ∪ (C \ V1)) := by
  subst hV1
  ext x
  by_cases hxc : x = c
  · subst hxc
    simp [hcD]
  · simp only [Finset.mem_sdiff, Finset.mem_union, Finset.mem_insert, hxc, false_or]
    tauto

theorem collectGo_spec :
    ∀ (n : Nat) (l : List Cell), sizeOf l ≤ n → ∀ (vis : List Cell) (A : Set Cell),
      vis.Nodup →
      (∀ x ∈ vis, x ∈ A ∨ reachF x ⊆ vis.toFinset) →
      (∀ c ∈ l, ∀ y ∈ reachF c, y ∉ A) →
      ((collectGo l vis).1.bits =
          ((reachList l \ vis.toFinset).sum fun x => (x.bitLen : Int)) ∧
        (collectGo l vis).1.cells = ((reachList l \ vis.toFinset).card : Int) ∧
        (collectGo l vis).2.toFinset = vis.toFinset ∪ reachList l ∧
        (collectGo l vis).2.Nodup ∧
        (∃ L, (collectGo l vis).2 = vis ++ L) ∧
        (∀ x ∈ (collectGo l vis).2, x ∈ A ∨ reachF x ⊆ (collectGo l vis).2.toFinset)) := by
  intro n
  induction n with
  | zero =>
    intro l hl
    exfalso
    cases l with
    | nil => simp at hl
    | cons c rest =>
      simp only [List.cons.sizeOf_spec] at hl
      omega
  | succ m ih =>
    intro l hl vis A hnd h2 h3
    cases l with
    | nil =>
      have heq : collectGo [] vis = (⟨0, 0⟩, vis) := by simp [collectGo]
      rw [heq]
      refine ⟨by simp [reachList_nil], by simp [reachList_nil], by simp [reachList_nil],
        hnd, ⟨[], by simp⟩, h2⟩
    | cons c rest =>
      have hszc : sizeOf c.refs ≤ m := by
        have h1 := Cell.sizeOf_refs_lt c
        simp only [List.cons.sizeOf_spec] at hl
        omega
      have hszr : sizeOf rest ≤ m := by
        simp only [List.cons.sizeOf_spec] at hl
        omega
      by_cases hmem : c ∈ vis
      · have heq : collectGo (c :: rest) vis = collectGo rest vis := by
          simp [collectGo, hmem]
        have hcA : c ∉ A := h3 c (List.mem_cons_self _ _) c (mem_reachF_self c)
        have hsub : reachF c ⊆ vis.toFinset := by
          rcases h2 c hmem with hx | hx
          · exact absurd hx hcA
          · exact hx
        have h3r : ∀ d ∈ rest, ∀ y ∈ reachF d, y ∉ A := fun d hd => h3 d (List.mem_cons_of_mem _ hd)
        obtain ⟨R1, R2, R3, R4, R5, R6⟩ := ih rest hszr vis A hnd h2 h3r
        have hset : reachList (c :: rest) \ vis.toFinset = reachList rest \ vis.toFinset := by
          rw [reachList_cons]
          ext x
          simp only [Finset.mem_sdiff, Finset.mem_union]
          constructor
          · rintro ⟨hx | hx, hnv⟩
            · exact absurd (hsub hx) hnv
            · exact ⟨hx, hnv⟩
          · rintro ⟨hx, hnv⟩
            exact ⟨Or.inr hx, hnv⟩
        have hset2 : vis.toFinset ∪ reachList (c :: rest) = vis.toFinset ∪ reachList rest := by
          rw [reachList_cons, ← Finset.union_assoc, Finset.union_eq_left.mpr hsub]
        rw [heq, hset, hset2]
        exact ⟨R1, R2, R3, R4, R5, R6⟩
      · have hmemF : c ∉ vis.toFinset := by simpa using hmem
        have hnd' : (vis ++ [c]).Nodup := by
          rw [List.nodup_append]
          refine ⟨hnd, List.nodup_singleton c, ?_⟩
          intro a ha hac
          rw [List.mem_singleton] at hac
          subst hac
          exact hmem ha
        have hv' : (vis ++ [c]).toFinset = insert c vis.toFinset :=
          toFinset_append_singleton vis c
        have h2' : ∀ x ∈ vis ++ [c], x ∈ A ∪ {c} ∨ reachF x ⊆ (vis ++ [c]).toFinset := by
          intro x hx
          rcases List.mem_append.mp hx with hx | hx
          · rcases h2 x hx with hy | hy
            · exact Or.inl (Set.mem_union_left _ hy)
            · refine Or.inr (hy.trans ?_)
              rw [hv']
              exact Finset.subset_insert _ _
          · rw [List.mem_singleton] at hx
            subst hx
            exact Or.inl (Set.mem_union_right _ rfl)
        have h3' : ∀ r ∈ c.refs, ∀ y ∈ reachF r, y ∉ (A ∪ {c} : Set Cell) := by
          intro r hr y hy hyA
          have hyc : y ∈ reachF c := by
            refine Finset.mem_insert_of_mem ?_
            exact reachF_subset_reachList hr hy
          rcases hyA with hyA | hyA
          · exact h3 c (List.mem_cons_self _ _) y hyc hyA
          · have h1 := mem_reachF_sizeOf hy
            have h2x := sizeOf_lt_of_mem hr
            have h3x := Cell.sizeOf_refs_lt c
            rw [Set.mem_singleton_iff] at hyA
            subst hyA
            omega
        obtain ⟨P1, P2, P3, P4, P5, P6⟩ := ih c.refs hszc (vis ++ [c]) (A ∪ {c}) hnd' h2' h3'
        have hV1 : (collectGo c.refs (vis ++ [c])).2.toFinset =
            vis.toFinset ∪ reachF c := by
          rw [P3, hv', reachF, Finset.insert_union, Finset.union_insert]
        have h21 : ∀ x ∈ (collectGo c.refs (vis ++ [c])).2, x ∈ A ∨
            reachF x ⊆ (collectGo c.refs (vis ++ [c])).2.toFinset := by
          intro x hx
          rcases P6 x hx with hy | hy
          · rcases hy with hy | hy
            · exact Or.inl hy
            · rw [Set.mem_singleton_iff] at hy
              subst hy
              refine Or.inr ?_
              rw [hV1]
              exact Finset.subset_union_right
          · exact Or.inr hy
        have h3r : ∀ d ∈ rest, ∀ y ∈ reachF d, y ∉ A := fun d hd => h3 d (List.mem_cons_of_mem _ hd)
        obtain ⟨Q1, Q2, Q3, Q4, Q5, Q6⟩ :=
          ih rest hszr (collectGo c.refs (vis ++ [c])).2 A P4 h21 h3r
        have heq : collectGo (c :: rest) vis =
            (⟨(c.bitLen : Int) + (collectGo c.refs (vis ++ [c])).1.bits +
                (collectGo rest (collectGo c.refs (vis ++ [c])).2).1.bits,
              1 + (collectGo c.refs (vis ++ [c])).1.cells +
                (collectGo rest (collectGo c.refs (vis ++ [c])).2).1.cells⟩,
              (collectGo rest (collectGo c.refs (vis ++ [c])).2).2) := by
          simp [collectGo, hmem]
        have hc_not_S1 : c ∉ reachList c.refs \ (vis ++ [c]).toFinset := by
          intro hx
          exact self_not_mem_reachList_refs c (Finset.mem_sdiff.mp hx).1
        have hc_not_S2 : c ∉ reachList rest \ (collectGo c.refs (vis ++ [c])).2.toFinset := by
          intro hx
          have hx2 := (Finset.mem_sdiff.mp hx).2
          rw [hV1] at hx2
          exact hx2 (Finset.mem_union_right _ (mem_reachF_self c))
        have hdisj : Disjoint (reachList c.refs \ (vis ++ [c]).toFinset)
            (reachList rest \ (collectGo c.refs (vis ++ [c])).2.toFinset) := by
          rw [Finset.disjoint_left]
          intro x hx1 hx2
          have hm1 := (Finset.mem_sdiff.mp hx1).1
          have hm2 := (Finset.mem_sdiff.mp hx2).2
          rw [hV1] at hm2
          exact hm2 (Finset.mem_union_right _ (Finset.mem_insert_of_mem hm1))
        have hS : reachList (c :: rest) \ vis.toFinset =
            insert c ((reachList c.refs \ (vis ++ [c]).toFinset) ∪
              (reachList rest \ (collectGo c.refs (vis ++ [c])).2.toFinset)) := by
          rw [reachList_cons, hv']
          have hx := reach_sdiff_decomp c (reachList c.refs) (reachList rest) vis.toFinset
            ((collectGo c.refs (vis ++ [c])).2.toFinset) hmemF (by rw [hV1, reachF])
          simp only [reachF]
          exact hx
        refine ⟨?_, ?_, ?_, ?_, ?_, ?_⟩
        · rw [heq]
          show (c.bitLen : Int) + _ + _ = _
          rw [P1, Q1, hS, Finset.sum_insert (by
            intro hx
            rcases Finset.mem_union.mp hx with hx | hx
            · exact hc_not_S1 hx
            · exact hc_not_S2 hx), Finset.sum_union hdisj]
          ring
        · rw [heq]
          show (1 : Int) + _ + _ = _
          rw [P2, Q2, hS, Finset.card_insert_of_not_mem (by
            intro hx
            rcases Finset.mem_union.mp hx with hx | hx
            · exact hc_not_S1 hx
            · exact hc_not_S2 hx), Finset.card_union_of_disjoint hdisj]
          push_cast
          ring
        · rw [heq]
          show (collectGo rest _).2.toFinset = _
          rw [Q3, hV1, reachList_cons, Finset.union_assoc]
        · rw [heq]
          exact Q4
        · rw [heq]
          obtain ⟨L1, hL1⟩ := P5
          obtain ⟨L2, hL2⟩ := Q5
          refine ⟨[c] ++ L1 ++ L2, ?_⟩
          rw [hL2, hL1]
          simp [List.append_assoc]
        · rw [heq]
          exact Q6

theorem reachList_perm {l1 l2 : List Cell} (h : l1.Perm l2) :
    reachList l1 = reachList l2 := by
  induction h with
  | nil => rfl
  | cons a h ih =>
    rw [reachList_cons, reachList_cons, ih]
  | swap a b l =>
    rw [reachList_cons, reachList_cons, reachList_cons, reachList_cons,
      ← Finset.union_assoc, ← Finset.union_assoc, Finset.union_comm (reachF b) (reachF a)]
  | trans h1 h2 ih1 ih2 =>
    rw [ih1, ih2]

theorem StorageStats.eq_of_fields {a b : StorageStats}
    (h1 : a.bits = b.bits) (h2 : a.cells = b.cells) : a = b := by
  cases a
  cases b
  simp_all

/-- C5: a fresh `collectCellStats` traversal counts every distinct
reachable cell exactly once - its total cells are the cardinality of the
reachable set and its total bits the sum of bit lengths over that set, so
a subtree shared between several positions contributes once - and the
totals of the reference-traversal loop are unchanged under any
permutation of the traversal order of the root's references. -/
theorem collectCellStats_dedup (c : Cell) :
    (collectCellStats c [] false).1.bits = ((reachF c).sum fun x => (x.bitLen : Int)) ∧
    (collectCellStats c [] false).1.cells = ((reachF c).card : Int) ∧
    (∀ l, l.Perm c.refs → (collectGo l [c]).1 = (collectGo c.refs [c]).1) := by
  have hspec : ∀ l, l.Perm c.refs →
      ((collectGo l [c]).1.bits = ((reachList c.refs).sum fun x => (x.bitLen : Int)) ∧
        (collectGo l [c]).1.cells = ((reachList c.refs).card : Int)) := by
    intro l hperm
    have h3 : ∀ d ∈ l, ∀ y ∈ reachF d, y ∉ ({c} : Set Cell) := by
      intro d hd y hy hyc
      have hd2 : d ∈ c.refs := hperm.mem_iff.mp hd
      have hs1 := mem_reachF_sizeOf hy
      have hs2 := sizeOf_lt_of_mem hd2
      have hs3 := Cell.sizeOf_refs_lt c
      rw [Set.mem_singleton_iff] at hyc
      subst hyc
      omega
    obtain ⟨B1, B2, _, _, _, _⟩ := collectGo_spec (sizeOf l) l (le_refl _) [c] {c}
      (List.nodup_singleton c)
      (by
        intro x hx
        rw [List.mem_singleton] at hx
        subst hx
        exact Or.inl rfl)
      h3
    have hrl : reachList l = reachList c.refs := reachList_perm hperm
    have hcnot : c ∉ reachList l := by
      rw [hrl]
      exact self_not_mem_reachList_refs c
    have hsd : reachList l \ ([c] : List Cell).toFinset = reachList c.refs := by
      rw [← hrl]
      ext x
      simp only [Finset.mem_sdiff, List.mem_toFinset, List.mem_singleton]
      constructor
      · rintro ⟨hx, _⟩
        exact hx
      · intro hx
        refine ⟨hx, ?_⟩
        intro hxc
        subst hxc
        exact hcnot hx
    rw [hsd] at B1 B2
    exact ⟨B1, B2⟩
  have hmain := hspec c.refs (List.Perm.refl _)
  have hcc : collectCellStats c [] false =
      (⟨(c.bitLen : Int) + (collectGo c.refs [c]).1.bits,
        1 + (collectGo c.refs [c]).1.cells⟩, (collectGo c.refs [c]).2) := by
    simp [collectCellStats]
  refine ⟨?_, ?_, ?_⟩
  · rw [hcc]
    show (c.bitLen : Int) + _ = _
    rw [hmain.1, reachF, Finset.sum_insert (self_not_mem_reachList_refs c)]
  · rw [hcc]
    show (1 : Int) + _ = _
    rw [hmain.2, reachF, Finset.card_insert_of_not_mem (self_not_mem_reachList_refs c)]
    push_cast
    ring
  · intro l hperm
    have hl := hspec l hperm
    refine StorageStats.eq_of_fields ?_ ?_
    · rw [hl.1, hmain.1]
    · rw [hl.2, hmain.2]

/-- Leaf cell with one payload bit, used as a shared subtree. -/
def cellLeafW : Cell := Cell.mk [true] []

/-- Intermediate cell referencing the shared leaf. -/
def cellMidW : Cell := Cell.mk [] [cellLeafW]

/-- Root cell whose two references both reach the shared leaf. -/
def cellRootW : Cell := Cell.mk [] [cellMidW, cellLeafW]

theorem collectCellStats_dedup_witness :
    ([cellLeafW, cellMidW].Perm cellRootW.refs) ∧
    (collectCellStats cellRootW [] false).1.bits =
      ((reachF cellRootW).sum fun x => (x.bitLen : Int)) ∧
    (collectCellStats cellRootW [] false).1.cells = ((reachF cellRootW).card : Int) ∧
    (collectGo [cellLeafW, cellMidW] [cellRootW]).1 =
      (collectGo cellRootW.refs [cellRootW]).1 := by
  have hperm : [cellLeafW, cellMidW].Perm cellRootW.refs := by
    rw [show cellRootW.refs = [cellMidW, cellLeafW] from rfl]
    exact List.Perm.swap cellMidW cellLeafW []
  have h := collectCellStats_dedup cellRootW
  exact ⟨hperm, h.1, h.2.1, h.2.2 _ hperm⟩
